import Mathlib

/-!
# Verification of the dev-engine core against its specification

Shallow embedding of the dev-engine's core subsystems, translated from the
TypeScript sources:

* `ErrorClassifier` — `src/src/core/ErrorClassifier.ts` (pattern table and
  `classify`); regexes are embedded as executable token-sequence matchers
  with backtracking semantics.
* `StateManager` — `src/dist/core/StateManager.js` (save/load/list,
  `isComplete`, plan-id generation).  Timestamps are modelled as
  milliseconds-since-epoch naturals; the ISO-8601 text rendering written to
  disk is modelled by the injective decimal digit encoding
  `Nat.digits 10` (decoded by `Nat.ofDigits 10`), which captures exactly
  the information the round trip preserves.
* `TaskScheduler` — `src/unnamed/part_004` (`loadPlan`,
  `hasCircularDependency`, semaphore, `scheduleTask`/`executeTask`
  retry logic, `skipDependentTasks`, `run`).  The JS event loop is
  modelled as a deterministic small-step machine: each thread of control
  (one per `scheduleTask` chain) is advanced between its `await` points;
  the semaphore is the pair `available`/`waiting`.  Executor behaviour is
  an arbitrary function from (task id, attempt number) to a result or a
  thrown message; `executeWithTimeout`'s timeout rejection is one such
  thrown message, so behaviours subsume timeouts.
* `DevEngine.resumeExecution` — `src/src/core/DevEngine.ts`.
-/

namespace DevEngineSpec

/-! ## Generic list helpers (association lists model JS `Map`, ordered) -/

/-- JS `Map.set`: update an existing key in place, append a new key. -/
def aset {α : Type} : List (String × α) → String → α → List (String × α)
  | [], k, v => [(k, v)]
  | (k₁, v₁) :: t, k, v =>
      if k₁ = k then (k, v) :: t else (k₁, v₁) :: aset t k v

/-- Update the value at a key if present (JS `map.get(k)` then mutate). -/
def amod {α : Type} : List (String × α) → String → (α → α) → List (String × α)
  | [], _, _ => []
  | (k₁, v₁) :: t, k, f =>
      if k₁ = k then (k₁, f v₁) :: t else (k₁, v₁) :: amod t k f

/-- JS `Set.add`: append if not already present (insertion order kept). -/
def sadd (l : List String) (x : String) : List String :=
  if x ∈ l then l else l ++ [x]

/-- Replace the element at an index (other positions unchanged). -/
def lmodify {α : Type} : List α → Nat → (α → α) → List α
  | [], _, _ => []
  | a :: t, 0, f => f a :: t
  | a :: t, n + 1, f => a :: lmodify t n f

/-! ## Character-level string helpers -/

/-- `p` is an initial segment of `s`. -/
def leadsWith : List Char → List Char → Bool
  | [], _ => true
  | _ :: _, [] => false
  | a :: as, b :: bs => a = b && leadsWith as bs

/-- `pat` occurs somewhere in `s` (substring test). -/
def hasSub (pat : List Char) : List Char → Bool
  | [] => leadsWith pat []
  | s@(_ :: t) => leadsWith pat s || hasSub pat t

def lowerChars (l : List Char) : List Char := l.map Char.toLower

/-- First occurrence of `pat` deleted (JS `String.replace(pat, "")`
with a plain-string pattern replaces only the first occurrence). -/
def replaceFirstL (pat : List Char) : List Char → List Char
  | [] => []
  | s@(c :: t) =>
      if leadsWith pat s then s.drop pat.length else c :: replaceFirstL pat t

def endsWithL (suf s : List Char) : Bool := leadsWith suf.reverse s.reverse

def strHasSub (s pat : String) : Bool := hasSub pat.toList s.toList

def strEndsWith (s suf : String) : Bool := endsWithL suf.toList s.toList

def strReplaceFirst (s pat : String) : String := ⟨replaceFirstL pat.toList s.toList⟩

/-! ## Error classifier (`src/src/core/ErrorClassifier.ts`)

Each regex in `ERROR_PATTERNS` is embedded as a sequence of tokens; a
token consumes part of the subject string.  `plus` is `(.+)` (one or more
non-newline characters), `star` is `.*`, `wsStar`/`wsPlus` are `\s*`/`\s+`,
`digits n` is `\d{n}`, `digPlus` is `\d+`.  Alternation and `?` in the
source regexes are expanded into several token sequences (a rule matches
if any of its patterns matches, so this is semantics-preserving).
Matching is existential (backtracking), exactly regex `exec` success. -/

inductive Tok where
  | lit (s : List Char)
  | plus
  | star
  | wsStar
  | wsPlus
  | digits (n : Nat)
  | digPlus
deriving DecidableEq

/-- JS `\s` on ASCII subjects: space, tab, newline, CR, vertical tab, form feed. -/
def isWsChar (c : Char) : Bool :=
  c = ' ' || c = '\t' || c = '\n' || c = '\r' || c = '\x0b' || c = '\x0c'

/-- Suffixes of `s` obtained by consuming 1..k leading non-newline chars. -/
def plusSuffixes : List Char → List (List Char)
  | [] => []
  | c :: t => if c ≠ '\n' then t :: plusSuffixes t else []

/-- Suffixes of `s` obtained by consuming 1..k leading whitespace chars. -/
def wsSuffixes : List Char → List (List Char)
  | [] => []
  | c :: t => if isWsChar c then t :: wsSuffixes t else []

/-- Suffixes of `s` obtained by consuming 1..k leading digit chars. -/
def digSuffixes : List Char → List (List Char)
  | [] => []
  | c :: t => if c.isDigit then t :: digSuffixes t else []

/-- Consume exactly `n` digits, if possible. -/
def dropDigits : Nat → List Char → Option (List Char)
  | 0, s => some s
  | _ + 1, [] => none
  | n + 1, c :: t => if c.isDigit then dropDigits n t else none

/-- Token sequence matches at the head of `s` (trailing characters free). -/
def matchToks : List Tok → List Char → Bool
  | [], _ => true
  | .lit p :: rest, s => leadsWith p s && matchToks rest (s.drop p.length)
  | .plus :: rest, s => (plusSuffixes s).any fun t => matchToks rest t
  | .star :: rest, s =>
      matchToks rest s || (plusSuffixes s).any fun t => matchToks rest t
  | .wsStar :: rest, s =>
      matchToks rest s || (wsSuffixes s).any fun t => matchToks rest t
  | .wsPlus :: rest, s => (wsSuffixes s).any fun t => matchToks rest t
  | .digits n :: rest, s =>
      match dropDigits n s with
      | some t => matchToks rest t
      | none => false
  | .digPlus :: rest, s => (digSuffixes s).any fun t => matchToks rest t

/-- Unanchored search: the token sequence matches at some position. -/
def searchToks (toks : List Tok) : List Char → Bool
  | [] => matchToks toks []
  | s@(_ :: t) => matchToks toks s || searchToks toks t

structure RePat where
  ci : Bool
  toks : List Tok
deriving DecidableEq

def lowerTok : Tok → Tok
  | .lit s => .lit (lowerChars s)
  | t => t

/-- `pattern.exec(subject)` succeeds (the `i` flag lowercases both sides). -/
def reExec (p : RePat) (s : List Char) : Bool :=
  if p.ci then searchToks (p.toks.map lowerTok) (lowerChars s)
  else searchToks p.toks s

/-- `classify` tries each pattern on the raw stderr and then on the
lowercased stderr (`pattern.exec(stderr) || pattern.exec(normalizedStderr)`). -/
def patHits (p : RePat) (s : List Char) : Bool :=
  reExec p s || reExec p (lowerChars s)

inductive ECategory where
  | synErr | typeErr | importErr | runtimeErr | assertErr
  | timeoutErr | permErr | resourceErr | netErr | unknownErr
deriving DecidableEq

def lit (s : String) : Tok := Tok.lit s.toList

def ciP (toks : List Tok) : RePat := ⟨true, toks⟩

def csP (toks : List Tok) : RePat := ⟨false, toks⟩

/-- The ordered rule table `ERROR_PATTERNS` of `ErrorClassifier.ts`.
The category names are: synErr = 'syntax', typeErr = 'type',
importErr = 'import', runtimeErr = 'runtime', assertErr = 'assertion',
timeoutErr = 'timeout', permErr = 'permission', resourceErr = 'resource',
netErr = 'network', unknownErr = 'unknown'. -/
def ERROR_PATTERNS : List (ECategory × List RePat) :=
  [ (.synErr,
      [ ciP [lit "SyntaxError:", .wsStar, .plus],
        ciP [lit "Unexpected token"],
        ciP [lit "Parsing error"],
        csP [lit "error TS1", .digits 3, lit ":"] ]),
    (.typeErr,
      [ ciP [lit "TypeError:", .wsStar, .plus],
        csP [lit "error TS2", .digits 3, lit ":"],
        csP [lit "Type \x27", .plus, lit "\x27 is not assignable to type \x27",
             .plus, lit "\x27"],
        csP [lit "Property \x27", .plus, lit "\x27 does not exist on type"],
        csP [lit "Cannot find name \x27", .plus, lit "\x27"] ]),
    (.importErr,
      [ csP [lit "Cannot find module \x27", .plus, lit "\x27"],
        ciP [lit "Module not found"],
        csP [lit "Error [ERR_MODULE_NOT_FOUND]"],
        ciP [lit "Unable to resolve module"],
        ciP [lit "No such file or directory", .star, lit "import"] ]),
    (.runtimeErr,
      [ ciP [lit "ReferenceError:", .wsStar, .plus],
        ciP [lit "RangeError:", .wsStar, .plus],
        ciP [lit "Error:", .wsStar, .plus, lit " is not defined"],
        ciP [lit "Maximum call stack size exceeded"],
        ciP [lit "undefined is not a function"],
        ciP [lit "null is not an object"] ]),
    (.assertErr,
      ([ csP [lit "expect(", .plus, lit ").toBe"],
         csP [lit "expect(", .plus, lit ").toEqual"],
         csP [lit "expect(", .plus, lit ").toHave"],
         csP [lit "expect(", .plus, lit ").toMatch"],
         csP [lit "expect(", .plus, lit ").toThrow"],
         csP [lit "expect(", .plus, lit ").not.toBe"],
         csP [lit "expect(", .plus, lit ").not.toEqual"],
         csP [lit "expect(", .plus, lit ").not.toHave"],
         csP [lit "expect(", .plus, lit ").not.toMatch"],
         csP [lit "expect(", .plus, lit ").not.toThrow"],
         ciP [lit "AssertionError"],
         ciP [lit "Expected:", .wsStar, .plus, .wsStar, lit "Received:",
              .wsStar, .plus],
         ciP [lit "Expected:", .wsStar, .plus, .wsStar, lit "Received",
              .wsStar, .plus],
         ciP [lit "Expected", .wsStar, .plus, .wsStar, lit "Received:",
              .wsStar, .plus],
         ciP [lit "Expected", .wsStar, .plus, .wsStar, lit "Received",
              .wsStar, .plus],
         ciP [lit "expected ", .plus, lit " to equal"],
         ciP [lit "expected ", .plus, lit " to be"],
         ciP [lit "expected ", .plus, lit " to match"],
         ciP [lit "expected ", .plus, lit " to throw"],
         csP [lit "FAIL", .wsPlus, .plus, lit ".test.ts"],
         csP [lit "FAIL", .wsPlus, .plus, lit ".test.js"] ])),
    (.timeoutErr,
      [ ciP [lit "Timeout"],
        ciP [lit "exceeded timeout"],
        ciP [lit "ETIMEDOUT"],
        ciP [lit "Async callback was not invoked within"],
        ciP [lit "Test timeout of ", .digPlus, lit "ms exceeded"] ]),
    (.permErr,
      [ csP [lit "EACCES"],
        ciP [lit "Permission denied"],
        csP [lit "EPERM"],
        ciP [lit "Operation not permitted"] ]),
    (.resourceErr,
      [ csP [lit "ENOENT"],
        ciP [lit "No such file or directory"],
        csP [lit "ENOTDIR"],
        ciP [lit "File not found"],
        ciP [lit "Directory not found"] ]),
    (.netErr,
      [ csP [lit "ECONNREFUSED"],
        csP [lit "ENOTFOUND"],
        csP [lit "getaddrinfo"],
        ciP [lit "network error"],
        ciP [lit "socket hang up"],
        csP [lit "ECONNRESET"] ]) ]

def firstMatch : List (ECategory × List RePat) → List Char → ECategory
  | [], _ => .unknownErr
  | (c, ps) :: rs, s =>
      if ps.any (fun p => patHits p s) then c else firstMatch rs s

/-- `ErrorClassifier.classify`, restricted to the category it returns.
The exit code argument is accepted but, as in the source, never consulted
for the category. -/
def classify (stderr : String) (_exitCode : Int) : ECategory :=
  firstMatch ERROR_PATTERNS stderr.toList

/-! ## State manager (`src/dist/core/StateManager.js`)

In-memory dates are milliseconds since the epoch (`Nat`).  The ISO-8601
string written by `toISOString` and read back by `new Date(...)` is a
lossless text rendering of that instant; it is modelled by the decimal
digit encoding `Nat.digits 10` / `Nat.ofDigits 10`.  The state directory
is a flat map from file name (relative to `stateDir`) to file content;
content is either a well-formed serialized state (`FileData.valid`) or
arbitrary text on which `JSON.parse` throws (`FileData.invalid`), e.g.
the literal `"not-json"`. -/

inductive TStatus where
  | pending | queued | running | completed | failed | skipped
deriving DecidableEq

inductive EPhase where
  | planning | executing | documenting | completed | failed
deriving DecidableEq

/-- `TaskState` of `src/src/interfaces/index.ts` (checkpointed task). -/
structure TaskStateM where
  id : String
  filePath : String
  description : String
  dependencies : List String
  status : TStatus
  result : Option String
  error : Option String
  attempts : Nat
  startedAt : Option Nat
  completedAt : Option Nat
deriving DecidableEq

/-- `ExecutionState` of `src/src/interfaces/index.ts`.  `metadata` is an
opaque JSON-serializable blob, modelled as an optional string. -/
structure ExecState where
  planId : String
  goal : String
  phase : EPhase
  tasks : List TaskStateM
  architectureReasoning : String
  startedAt : Nat
  lastCheckpoint : Nat
  metadata : Option String
deriving DecidableEq

/-- ISO-8601 rendering of an instant (modelled as its decimal digits). -/
def encDate (n : Nat) : List Nat := Nat.digits 10 n

/-- `new Date(isoString).getTime()` on a rendering produced by `encDate`. -/
def decDate (l : List Nat) : Nat := Nat.ofDigits 10 l

/-- On-disk form of a task: only the two date fields are transformed by
`save` (`startedAt?.toISOString()`, `completedAt?.toISOString()`); every
other field goes through the JSON round trip unchanged. -/
structure SerTask where
  id : String
  filePath : String
  description : String
  dependencies : List String
  status : TStatus
  result : Option String
  error : Option String
  attempts : Nat
  startedAt : Option (List Nat)
  completedAt : Option (List Nat)
deriving DecidableEq

/-- On-disk form of an execution state. -/
structure SerState where
  planId : String
  goal : String
  phase : EPhase
  tasks : List SerTask
  architectureReasoning : String
  startedAt : List Nat
  lastCheckpoint : List Nat
  metadata : Option String
deriving DecidableEq

inductive FileData where
  | valid (s : SerState)
  | invalid (text : String)
deriving DecidableEq

/-- The state directory: file name (within `stateDir`) to content. -/
abbrev Store := List (String × FileData)

def serTask (t : TaskStateM) : SerTask :=
  { id := t.id, filePath := t.filePath, description := t.description,
    dependencies := t.dependencies, status := t.status, result := t.result,
    error := t.error, attempts := t.attempts,
    startedAt := t.startedAt.map encDate,
    completedAt := t.completedAt.map encDate }

def deserTask (t : SerTask) : TaskStateM :=
  { id := t.id, filePath := t.filePath, description := t.description,
    dependencies := t.dependencies, status := t.status, result := t.result,
    error := t.error, attempts := t.attempts,
    startedAt := t.startedAt.map decDate,
    completedAt := t.completedAt.map decDate }

/-- `save`'s serialization: spread the state, rewrite `lastCheckpoint`
to the moment of the save, render all dates. -/
def serializeState (st : ExecState) (now : Nat) : SerState :=
  { planId := st.planId, goal := st.goal, phase := st.phase,
    tasks := st.tasks.map serTask,
    architectureReasoning := st.architectureReasoning,
    startedAt := encDate st.startedAt,
    lastCheckpoint := encDate now,
    metadata := st.metadata }

/-- `load`'s deserialization: spread the parsed object, decode the dates. -/
def deserializeState (s : SerState) : ExecState :=
  { planId := s.planId, goal := s.goal, phase := s.phase,
    tasks := s.tasks.map deserTask,
    architectureReasoning := s.architectureReasoning,
    startedAt := decDate s.startedAt,
    lastCheckpoint := decDate s.lastCheckpoint,
    metadata := s.metadata }

namespace StateManager

/-- `getStatePath` relative to the state directory. -/
def statePath (planId : String) : String := planId ++ ".json"

/-- `StateManager.save` (the `ensureStateDir` call has no observable
effect on the file map beyond enabling the write). -/
def save (store : Store) (st : ExecState) (now : Nat) : Store :=
  aset store (statePath st.planId) (.valid (serializeState st now))

/-- `StateManager.exists`. -/
def existsFile (store : Store) (planId : String) : Bool :=
  (List.lookup (statePath planId) store).isSome

/-- `StateManager.load`: `null` when the file is absent or its contents
fail to parse. -/
def load (store : Store) (planId : String) : Option ExecState :=
  match List.lookup (statePath planId) store with
  | none => none
  | some (.valid s) => some (deserializeState s)
  | some (.invalid _) => none

/-- `StateManager.list`: keep file names ending in `.json`, strip the
first occurrence of `.json` from each (JS `f.replace('.json', '')`).
The contents of the files are never read. -/
def list (store : Store) : List String :=
  ((store.map Prod.fst).filter fun f => strEndsWith f ".json").map
    fun f => strReplaceFirst f ".json"

/-- `StateManager.isComplete`. -/
def isComplete (st : ExecState) : Bool :=
  decide (st.phase = EPhase.completed) ||
    st.tasks.all fun t => decide (t.status = TStatus.completed)

/-- Base-36 digit characters used by JS `Number.toString(36)`. -/
def b36Char (d : Nat) : Char :=
  if d < 10 then Char.ofNat (48 + d) else Char.ofNat (87 + d)

/-- JS `Date.now().toString(36)`. -/
def natToBase36 (n : Nat) : String :=
  ⟨((Nat.digits 36 n).map b36Char).reverse⟩

/-- `StateManager.generatePlanId`.  The first eight hex characters of the
SHA-256 of the goal come from an external crypto library, passed in as
the function `hash8`. -/
def generatePlanId (hash8 : String → String) (goal : String) (now : Nat) :
    String :=
  "plan-" ++ hash8 goal ++ "-" ++ natToBase36 now

end StateManager

/-- The two ways `DevEngine.run` can start: resuming the found checkpoint
or creating a fresh state with a newly generated plan id. -/
inductive RunStart where
  | resumed (planId : String)
  | fresh (planId : String)
deriving DecidableEq

/-- The entry decision of `DevEngine.run` (lines 214–228): resume only
when requested, checkpoints are enabled, a checkpoint for the goal was
found, and that checkpoint is not complete; otherwise create a fresh
state via `StateManager.createInitialState`. -/
def runEntry (hash8 : String → String) (resume enableCheckpoints : Bool)
    (existing : Option ExecState) (goal : String) (now : Nat) : RunStart :=
  match resume && enableCheckpoints, existing with
  | true, some s =>
      if StateManager.isComplete s then
        .fresh (StateManager.generatePlanId hash8 goal now)
      else .resumed s.planId
  | _, _ => .fresh (StateManager.generatePlanId hash8 goal now)

/-! ## Lemmas about the helpers -/

theorem lookup_aset_self {α : Type} (l : List (String × α)) (k : String)
    (v : α) : List.lookup k (aset l k v) = some v := by
  induction l with
  | nil => simp [aset, List.lookup]
  | cons h t ih =>
      obtain ⟨k₁, v₁⟩ := h
      by_cases hk : k₁ = k
      · simp [aset, hk, List.lookup]
      · simp only [aset, if_neg hk, List.lookup]
        have : (k == k₁) = false := by
          simp [beq_iff_eq]; exact fun e => hk e.symm
        simp [this, ih]

theorem mem_keys_of_lookup {α : Type} {l : List (String × α)} {k : String}
    {v : α} (h : List.lookup k l = some v) : k ∈ l.map Prod.fst := by
  induction l with
  | nil => simp [List.lookup] at h
  | cons p t ih =>
      obtain ⟨k₁, v₁⟩ := p
      by_cases hk : k = k₁
      · simp [hk]
      · have hb : (k == k₁) = false := by simp [beq_iff_eq, hk]
        simp only [List.lookup, hb] at h
        simp [ih h]

theorem leadsWith_append_self (p r : List Char) :
    leadsWith p (p ++ r) = true := by
  induction p with
  | nil => simp [leadsWith]
  | cons c t ih => simp [leadsWith, ih]

theorem strEndsWith_append (x suf : String) :
    strEndsWith (x ++ suf) suf = true := by
  show endsWithL suf.toList (x.toList ++ suf.toList) = true
  unfold endsWithL
  rw [List.reverse_append]
  exact leadsWith_append_self _ _

theorem decDate_encDate (n : Nat) : decDate (encDate n) = n :=
  Nat.ofDigits_digits 10 n

theorem optDate_roundtrip (o : Option Nat) :
    (o.map encDate).map decDate = o := by
  cases o <;> simp [decDate_encDate]

theorem optDate_roundtrip_comp (o : Option Nat) :
    Option.map (decDate ∘ encDate) o = o := by
  cases o <;> simp [decDate_encDate]

theorem deserTask_serTask (t : TaskStateM) : deserTask (serTask t) = t := by
  cases t
  simp [serTask, deserTask, optDate_roundtrip_comp]

theorem deserialize_serialize (st : ExecState) (now : Nat) :
    deserializeState (serializeState st now) = { st with lastCheckpoint := now } := by
  cases st
  simp [serializeState, deserializeState, decDate_encDate,
    List.map_map, Function.comp_def, deserTask_serTask]

/-! ## Task scheduler (`src/unnamed/part_004`)

The scheduler is embedded as a small-step machine over `LState`.

* `GState` holds the fields of the `TaskScheduler` object: the ordered
  task map, `dependents`, `indegree` (an `Int`, as JS numbers go negative
  when a dangling decrement occurs), and the `completedTasks` /
  `failedTasks` sets (insertion-ordered lists).
* The semaphore is `available` (the `permits` counter) plus `waiting`
  (the FIFO of queued `acquire` continuations, as indices into
  `threads`).
* Each chain of `scheduleTask`/`executeTask` calls for one task is a
  `Thread`; `held` counts the permits the chain currently holds (a retry
  re-enters `scheduleTask` and acquires a further permit while the outer
  `finally` blocks still hold theirs).  Thread phases are the `await`
  boundaries of the source: `startExec` (permit acquired, about to run
  the synchronous head of `executeTask`, which marks RUNNING, increments
  `attempts` and invokes the executor), `awaitExec` (executor promise
  pending), `retrying` (after `task:retry`, sleeping `retryDelay`),
  `blocked` (parked inside `semaphore.acquire`), `done` (all `finally`
  blocks have run and released the held permits).
* Executor behaviour is a function `Beh` from task id and attempt number
  to `Except.error msg` (the executor threw, or `executeWithTimeout`
  fired) or `Except.ok result`.
* `task:start`/`task:complete`/… events have no subscribers inside the
  scheduler, so `emit` is a no-op; the `startedAt`/`completedAt` wall
  clock stamps are not modelled.  `log` records each executor
  invocation as (task id, attempt number), appended exactly where
  `this.executor(task)` is called.
* Recursive traversals (`hasCircularDependency`'s three-colour DFS and
  `skipDependentTasks`' BFS) take a fuel argument so that they are
  structurally recursive and kernel-computable; the fuel passed in is an
  upper bound on the number of calls the source recursion performs
  (2·(nodes+edges)+2), so the exhaustion branch is never taken.
-/

structure STask where
  filePath : String
  description : String
  dependencies : List String
  priority : Option Int
  status : TStatus
  result : Option String
  error : Option String
  attempts : Nat
  maxAttempts : Nat
deriving DecidableEq

/-- A task as passed to `loadPlan` (before normalization): `maxAttempts`
optional (`?? defaultMaxAttempts`), `priority` optional (`?? 0` at sort
time), `result` carried through the object spread. -/
structure PTask where
  id : String
  filePath : String
  description : String
  dependencies : List String
  priority : Option Int
  maxAttempts : Option Nat
  result : Option String
deriving DecidableEq

structure SOptions where
  maxConcurrency : Nat := 3
  defaultMaxAttempts : Nat := 3
deriving DecidableEq

structure GState where
  tasks : List (String × STask)
  dependents : List (String × List String)
  indegree : List (String × Int)
  completedT : List String
  failedT : List String
deriving DecidableEq

def depsOf (g : GState) (u : String) : List String :=
  (List.lookup u g.dependents).getD []

/-- First loop of `loadPlan`: normalize and insert every task
(status PENDING, attempts 0, defaulted `maxAttempts`), zero indegree,
empty dependents list. -/
def initGState (opts : SOptions) (pl : List PTask) : GState :=
  pl.foldl (fun g p =>
    { g with
      tasks := aset g.tasks p.id
        { filePath := p.filePath, description := p.description,
          dependencies := p.dependencies, priority := p.priority,
          status := .pending, result := p.result, error := none,
          attempts := 0,
          maxAttempts := p.maxAttempts.getD opts.defaultMaxAttempts },
      indegree := aset g.indegree p.id 0,
      dependents := aset g.dependents p.id [] })
    { tasks := [], dependents := [], indegree := [],
      completedT := [], failedT := [] }

/-- Second loop of `loadPlan`: for each declared dependency, drop the
edge with a warning when the parent id is unknown, otherwise record
parent→child and increment the child's indegree. -/
def addEdges (g : GState) (pl : List PTask) : GState :=
  pl.foldl (fun g p =>
    p.dependencies.foldl (fun g parentId =>
      if (List.lookup parentId g.tasks).isSome then
        { g with
          dependents := amod g.dependents parentId (fun cs => cs ++ [p.id]),
          indegree := aset g.indegree p.id
            (((List.lookup p.id g.indegree).getD 0) + 1) }
      else g) g) g

/-- `TaskScheduler.loadPlan` (after `reset`). -/
def loadPlan (opts : SOptions) (pl : List PTask) : GState :=
  addEdges (initGState opts pl) pl

/-- One activation record of the source's recursive `dfs`: either a call
`dfs(u)` about to colour `u` gray, or the loop over a children list. -/
inductive DfsJob where
  | visit (u : String)
  | children (cs : List String)

/-- The three-colour DFS of `hasCircularDependency` (white 0, gray 1,
black 2).  Fuel exhaustion answers `true`; the caller passes enough fuel
that this branch is unreachable. -/
def dfsRun (g : GState) : Nat → List (String × Nat) → DfsJob →
    (List (String × Nat) × Bool)
  | 0, color, _ => (color, true)
  | fuel + 1, color, .visit u =>
      match dfsRun g fuel (aset color u 1) (.children (depsOf g u)) with
      | (c₂, true) => (c₂, true)
      | (c₂, false) => (aset c₂ u 2, false)
  | _ + 1, color, .children [] => (color, false)
  | fuel + 1, color, .children (c :: cs) =>
      match List.lookup c color with
      | some 1 => (color, true)
      | some 0 =>
          match dfsRun g fuel color (.visit c) with
          | (c₂, true) => (c₂, true)
          | (c₂, false) => dfsRun g fuel c₂ (.children cs)
      | _ => dfsRun g fuel color (.children cs)

def edgeCount (g : GState) : Nat :=
  (g.dependents.map fun p => p.2.length).sum

def traverseFuel (g : GState) : Nat :=
  2 * (g.tasks.length + edgeCount g) + 2

/-- `TaskScheduler.hasCircularDependency`: initialize every task white,
start a DFS from every still-white task, report any gray back-edge. -/
def hasCircularDependency (g : GState) : Bool :=
  (g.tasks.foldl (fun acc p =>
    match acc with
    | (color, true) => (color, true)
    | (color, false) =>
        match List.lookup p.1 color with
        | some 0 => dfsRun g (traverseFuel g) color (.visit p.1)
        | _ => (color, false))
    (g.tasks.map fun p => (p.1, 0), false)).2

/-! ### The event-loop machine -/

inductive TPhase where
  | startExec | awaitExec | retrying | blocked | done
deriving DecidableEq

structure Thread where
  tid : String
  phase : TPhase
  held : Nat
deriving DecidableEq

structure LState where
  g : GState
  available : Nat
  waiting : List Nat
  threads : List Thread
  log : List (String × Nat)
deriving DecidableEq

abbrev Beh := String → Nat → Except String String

/-- The synchronous head of `scheduleTask` for a fresh task: mark QUEUED
and call `semaphore.acquire()`; with a free permit the thread proceeds to
`executeTask` (`startExec`), otherwise its resolver joins the FIFO. -/
def spawnTask (st : LState) (c : String) : LState :=
  if 0 < st.available then
    { st with
      g := { st.g with
        tasks := amod st.g.tasks c fun t => { t with status := .queued } },
      available := st.available - 1,
      threads := st.threads ++ [⟨c, .startExec, 1⟩] }
  else
    { st with
      g := { st.g with
        tasks := amod st.g.tasks c fun t => { t with status := .queued } },
      threads := st.threads ++ [⟨c, .blocked, 0⟩],
      waiting := st.waiting ++ [st.threads.length] }

/-- `semaphore.release()`: the permit either returns to the pool or is
handed (permits++ then permits--) to the first waiter, whose `acquire`
resumes at `executeTask`. -/
def releaseOne (st : LState) : LState :=
  match st.waiting with
  | [] => { st with available := st.available + 1 }
  | j :: rest =>
      { st with
        waiting := rest,
        threads := lmodify st.threads j fun th =>
          { th with phase := .startExec, held := th.held + 1 } }

def releaseN : LState → Nat → LState
  | st, 0 => st
  | st, n + 1 => releaseN (releaseOne st) n

/-- The chain of `finally { this.semaphore.release() }` epilogues that
runs once a task reaches a terminal status: every held permit is
released and the thread is finished. -/
def finishThread (st : LState) (i : Nat) (heldN : Nat) : LState :=
  releaseN
    { st with threads := lmodify st.threads i fun th =>
        { th with phase := .done, held := 0 } }
    heldN

/-- The loop body of `onTaskCompleted`: decrement each child's indegree;
children that reach exactly zero while still PENDING join the
newly-ready list. -/
def completeChildrenGo : LState → List String → List String →
    LState × List String
  | st, ready, [] => (st, ready)
  | st, ready, c :: cs =>
      let ind := ((List.lookup c st.g.indegree).getD 0) - 1
      let st' : LState :=
        { st with g := { st.g with
            indegree := aset st.g.indegree c ind } }
      if ind = 0 then
        match List.lookup c st'.g.tasks with
        | some t =>
            if t.status = TStatus.pending then
              completeChildrenGo st' (ready ++ [c]) cs
            else completeChildrenGo st' ready cs
        | none => completeChildrenGo st' ready cs
      else completeChildrenGo st' ready cs

/-- `onTaskCompleted`'s child loop. -/
def completeChildren (st : LState) (children : List String) :
    LState × List String :=
  completeChildrenGo st [] children

/-- The queue/visited loop of `skipDependentTasks`, returning the ids in
visit order (`toSkip`). -/
def skipBfs (g : GState) : Nat → List String → List String → List String
  | 0, _, visited => visited
  | _ + 1, [], visited => visited
  | fuel + 1, q :: queue, visited =>
      if q ∈ visited then skipBfs g fuel queue visited
      else skipBfs g fuel (queue ++ depsOf g q) (visited ++ [q])

/-- Marking step of `skipDependentTasks`: SKIPPED, the naming error
message, and membership in the failed set. -/
def markSkipped (failedId : String) (st : LState) (tid : String) : LState :=
  { st with g := { st.g with
      tasks := amod st.g.tasks tid (fun t =>
        { t with
          status := .skipped,
          error := some ("Skipped due to failed dependency: " ++ failedId) }),
      failedT := sadd st.g.failedT tid } }

/-- `TaskScheduler.skipDependentTasks`: BFS over `dependents` from the
failed task; every visited descendant is marked SKIPPED with the naming
error message and added to the failed set. -/
def skipDependentTasks (st : LState) (failedId : String) : LState :=
  (skipBfs st.g (traverseFuel st.g) (depsOf st.g failedId) []).foldl
    (markSkipped failedId) st

/-- Advance thread `i` across its next `await` boundary. -/
def stepThread (beh : Beh) (st : LState) (i : Nat) : LState :=
  match st.threads.get? i with
  | none => st
  | some th =>
    match th.phase with
    | .startExec =>
        -- head of executeTask: RUNNING, attempts++, task:start,
        -- executeWithTimeout invokes the executor
        (match List.lookup th.tid st.g.tasks with
         | some t =>
             { st with
               g := { st.g with tasks := amod st.g.tasks th.tid fun t =>
                 { t with status := .running, attempts := t.attempts + 1 } },
               log := st.log ++ [(th.tid, t.attempts + 1)],
               threads := lmodify st.threads i fun th =>
                 { th with phase := .awaitExec } }
         | none =>
             { st with threads := lmodify st.threads i fun th =>
                 { th with phase := .awaitExec } })
    | .awaitExec =>
        (match List.lookup th.tid st.g.tasks with
         | some t =>
             (match beh th.tid t.attempts with
              | .ok r =>
                  -- success branch of executeTask, then onTaskCompleted
                  -- (fire-and-forget scheduleTask for newly ready
                  -- children), then the finally chain releases
                  let st₁ : LState := { st with g := { st.g with
                      tasks := amod st.g.tasks th.tid (fun t =>
                        { t with status := .completed, result := some r }),
                      completedT := sadd st.g.completedT th.tid } }
                  let res := completeChildren st₁ (depsOf st₁.g th.tid)
                  finishThread (res.2.foldl spawnTask res.1) i th.held
              | .error m =>
                  if t.attempts < t.maxAttempts then
                    -- task:retry, sleep retryDelay, then scheduleTask again
                    { st with threads := lmodify st.threads i fun th =>
                        { th with phase := .retrying } }
                  else
                    -- final failure: FAILED, record error, cascade skip,
                    -- then the finally chain releases
                    let st₁ : LState := { st with g := { st.g with
                        tasks := amod st.g.tasks th.tid (fun t =>
                          { t with status := .failed, error := some m }),
                        failedT := sadd st.g.failedT th.tid } }
                    finishThread (skipDependentTasks st₁ th.tid) i th.held)
         | none => finishThread st i th.held)
    | .retrying =>
        -- re-entered scheduleTask: QUEUED, acquire another permit
        let st₁ : LState := { st with g := { st.g with
            tasks := amod st.g.tasks th.tid fun t =>
              { t with status := .queued } } }
        if 0 < st₁.available then
          { st₁ with
            available := st₁.available - 1,
            threads := lmodify st₁.threads i fun th =>
              { th with phase := .startExec, held := th.held + 1 } }
        else
          { st₁ with
            threads := lmodify st₁.threads i fun th =>
              { th with phase := .blocked },
            waiting := st₁.waiting ++ [i] }
    | .blocked => st
    | .done => st

def runnablePhase : TPhase → Bool
  | .startExec | .awaitExec | .retrying => true
  | _ => false

def findRunnable (threads : List Thread) : Option Nat :=
  threads.findIdx? fun th => runnablePhase th.phase

def nonTerminal : TStatus → Bool
  | .pending | .queued | .running => true
  | _ => false

/-- The condition polled by `waitForCompletion`: no task is PENDING,
QUEUED or RUNNING. -/
def loopFinished (st : LState) : Bool :=
  (st.g.tasks.filter fun p => nonTerminal p.2.status).isEmpty

/-- The error thrown after completion when some tasks failed. -/
def failMsg (st : LState) : String :=
  toString st.g.failedT.length ++ " task(s) failed: " ++
    String.intercalate ", " st.g.failedT

inductive RunResult where
  | ok (st : LState)
  | threw (msg : String) (st : LState)
  | outOfFuel (st : LState)
  | stuck (st : LState)
deriving DecidableEq

def RunResult.state : RunResult → LState
  | .ok st | .threw _ st | .outOfFuel st | .stuck st => st

/-- `run()` settles: its promise resolves (`ok`) or rejects (`threw`).
`stuck` means no task made the poll condition true and no continuation
can ever run again: the promise stays pending forever.  `outOfFuel` is a
model artifact (the step budget ran out). -/
def RunResult.settled : RunResult → Bool
  | .ok _ | .threw _ _ => true
  | _ => false

/-- The event loop of a `run()` in progress: while some task is
non-terminal, run the next ready continuation. -/
def schedLoop (beh : Beh) : Nat → LState → RunResult
  | 0, st => .outOfFuel st
  | fuel + 1, st =>
      if loopFinished st then
        if st.g.failedT.isEmpty then .ok st else .threw (failMsg st) st
      else
        match findRunnable st.threads with
        | some i => schedLoop beh fuel (stepThread beh st i)
        | none => .stuck st

def prioOf (t : STask) : Int := t.priority.getD 0

/-- Stable insert for the descending priority sort (JS `Array.sort` with
`(a,b) => (b.priority ?? 0) - (a.priority ?? 0)` is stable). -/
def insertDesc (x : String × STask) :
    List (String × STask) → List (String × STask)
  | [] => [x]
  | y :: ys =>
      if prioOf y.2 ≤ prioOf x.2 then x :: y :: ys else y :: insertDesc x ys

/-- `TaskScheduler.getReadyTasks`: PENDING tasks with indegree 0, sorted
by priority descending (stable). -/
def getReadyTasks (g : GState) : List (String × STask) :=
  (g.tasks.filter fun p =>
      decide (p.2.status = TStatus.pending) &&
      decide (((List.lookup p.1 g.indegree).getD 0) = 0)).foldr insertDesc []

def mkL (opts : SOptions) (g : GState) : LState :=
  { g := g, available := opts.maxConcurrency, waiting := [],
    threads := [], log := [] }

/-- State after `run()` has synchronously called `scheduleTask` on the
whole initial batch (each call marks QUEUED and tries the semaphore). -/
def startState (opts : SOptions) (g : GState) : LState :=
  ((getReadyTasks g).map Prod.fst).foldl spawnTask (mkL opts g)

/-- `TaskScheduler.run`, from a loaded graph state. -/
def runCore (opts : SOptions) (beh : Beh) (fuel : Nat) (g : GState) :
    RunResult :=
  if hasCircularDependency g then
    .threw "Circular dependency detected in task plan" (mkL opts g)
  else if (getReadyTasks g).isEmpty && !g.tasks.isEmpty then
    .threw "No tasks are ready to execute. Check dependency configuration."
      (mkL opts g)
  else schedLoop beh fuel (startState opts g)

/-- `loadPlan` followed by `run()`. -/
def runScheduler (opts : SOptions) (beh : Beh) (pl : List PTask)
    (fuel : Nat) : RunResult :=
  runCore opts beh fuel (loadPlan opts pl)

/-- `TaskScheduler.resumeFrom`: mark the named tasks COMPLETED with their
results and decrement every child's indegree, clamped at 0. -/
def resumeFrom (g : GState) (completedIds : List String)
    (results : List (String × String)) : GState :=
  completedIds.foldl (fun g tid =>
    match List.lookup tid g.tasks with
    | none => g
    | some _ =>
        let g₁ : GState := { g with
          tasks := amod g.tasks tid (fun t =>
            { t with
              status := .completed,
              result := List.lookup tid results }),
          completedT := sadd g.completedT tid }
        (depsOf g₁ tid).foldl (fun g child =>
          let cur := (List.lookup child g.indegree).getD 0
          { g with indegree := aset g.indegree child (max 0 (cur - 1)) })
          g₁) g

/-- Number of tasks currently of the given status (`getStatus` summary). -/
def countStatus (st : LState) (s : TStatus) : Nat :=
  (st.g.tasks.filter fun p => decide (p.2.status = s)).length

def statusOf (st : LState) (id : String) : Option TStatus :=
  (List.lookup id st.g.tasks).map STask.status

def errorOf (st : LState) (id : String) : Option String :=
  (List.lookup id st.g.tasks).bind STask.error

/-- Executor invocations recorded for a task over the run so far. -/
def countLog (log : List (String × Nat)) (id : String) : Nat :=
  (log.filter fun e => decide (e.1 = id)).length

def RunResult.msg : RunResult → Option String
  | .threw m _ => some m
  | _ => none

/-- Unfolding of one event-loop iteration. -/
theorem schedLoop_succ (beh : Beh) (n : Nat) (st : LState) :
    schedLoop beh (n + 1) st =
      if loopFinished st then
        if st.g.failedT.isEmpty then .ok st else .threw (failMsg st) st
      else
        match findRunnable st.threads with
        | some i => schedLoop beh n (stepThread beh st i)
        | none => .stuck st := rfl

/-! ### Lemmas about `amod`, `sadd` and the skip marker -/

theorem lookup_amod_self {α : Type} (l : List (String × α)) (k : String)
    (f : α → α) : List.lookup k (amod l k f) = (List.lookup k l).map f := by
  induction l with
  | nil => simp [amod, List.lookup]
  | cons h t ih =>
      obtain ⟨k₁, v₁⟩ := h
      by_cases hk : k₁ = k
      · subst hk; simp [amod, List.lookup]
      · have hb : (k == k₁) = false := by simp [beq_iff_eq]; exact fun e => hk e.symm
        simp [amod, if_neg hk, List.lookup, hb, ih]

theorem lookup_amod_ne {α : Type} (l : List (String × α)) (k k' : String)
    (f : α → α) (h : k' ≠ k) :
    List.lookup k' (amod l k f) = List.lookup k' l := by
  induction l with
  | nil => simp [amod]
  | cons p t ih =>
      obtain ⟨k₁, v₁⟩ := p
      by_cases hk : k₁ = k
      · subst hk
        have hb : (k' == k₁) = false := by simp [beq_iff_eq]; exact h
        simp [amod, List.lookup, hb]
      · by_cases hk' : k' = k₁
        · subst hk'; simp [amod, if_neg hk, List.lookup]
        · have hb : (k' == k₁) = false := by simp [beq_iff_eq]; exact hk'
          simp [amod, if_neg hk, List.lookup, hb, ih]

theorem mem_sadd_of_mem {l : List String} {x : String} (y : String)
    (h : x ∈ l) : x ∈ sadd l y := by
  unfold sadd
  by_cases hy : y ∈ l
  · simp [hy, h]
  · simp [hy]; exact Or.inl h

theorem mem_sadd_self (l : List String) (x : String) : x ∈ sadd l x := by
  unfold sadd
  by_cases hx : x ∈ l
  · simp [hx]
  · simp [hx]

/-- The skipped-descendant property: SKIPPED status, the naming error
message, membership in the failed set. -/
def SkippedMarked (st : LState) (fid d : String) : Prop :=
  statusOf st d = some TStatus.skipped ∧
  errorOf st d = some ("Skipped due to failed dependency: " ++ fid) ∧
  d ∈ st.g.failedT

theorem markSkipped_lookup_isSome (fid tid d : String) (st : LState)
    (h : (List.lookup d st.g.tasks).isSome) :
    (List.lookup d (markSkipped fid st tid).g.tasks).isSome := by
  unfold markSkipped
  by_cases e : d = tid
  · subst e
    cases hl : List.lookup d st.g.tasks with
    | none => rw [hl] at h; simp at h
    | some t => simp [lookup_amod_self, hl]
  · simp [lookup_amod_ne _ _ _ _ e, h]

theorem markSkipped_marks (fid d : String) (st : LState)
    (h : (List.lookup d st.g.tasks).isSome) :
    SkippedMarked (markSkipped fid st d) fid d := by
  cases hl : List.lookup d st.g.tasks with
  | none => rw [hl] at h; simp at h
  | some t =>
      refine ⟨?_, ?_, ?_⟩
      · simp [markSkipped, statusOf, lookup_amod_self, hl]
      · simp [markSkipped, errorOf, lookup_amod_self, hl]
      · exact mem_sadd_self _ _

theorem markSkipped_preserves (fid tid d : String) (st : LState)
    (h : SkippedMarked st fid d) : SkippedMarked (markSkipped fid st tid) fid d := by
  obtain ⟨h₁, h₂, h₃⟩ := h
  by_cases e : d = tid
  · subst e
    unfold statusOf at h₁
    cases hl : List.lookup d st.g.tasks with
    | none => rw [hl] at h₁; simp at h₁
    | some t =>
        refine ⟨?_, ?_, ?_⟩
        · simp [markSkipped, statusOf, lookup_amod_self, hl]
        · simp [markSkipped, errorOf, lookup_amod_self, hl]
        · exact mem_sadd_self _ _
  · exact ⟨by simpa [markSkipped, statusOf, lookup_amod_ne _ _ _ _ e] using h₁,
      by simpa [markSkipped, errorOf, lookup_amod_ne _ _ _ _ e] using h₂,
      mem_sadd_of_mem _ h₃⟩

theorem foldl_markSkipped_preserves (fid d : String) (l : List String) :
    ∀ st : LState, SkippedMarked st fid d →
      SkippedMarked (l.foldl (markSkipped fid) st) fid d := by
  induction l with
  | nil => intro st h; simpa using h
  | cons b u ih =>
      intro st h
      exact ih _ (markSkipped_preserves fid b d st h)

theorem foldl_markSkipped_marks (fid : String) (l : List String) :
    ∀ (st : LState) (d : String), d ∈ l →
      (List.lookup d st.g.tasks).isSome →
      SkippedMarked (l.foldl (markSkipped fid) st) fid d := by
  induction l with
  | nil => intro st d hd; simp at hd
  | cons a t ih =>
      intro st d hd hs
      rcases List.mem_cons.mp hd with rfl | hdt
      · exact foldl_markSkipped_preserves fid d t _ (markSkipped_marks fid d st hs)
      · exact ih _ d hdt (markSkipped_lookup_isSome fid a d st hs)

/-- Every descendant visited by the BFS of `skipDependentTasks` (and
present in the task map) ends SKIPPED, carries the error naming the
failed task, and joins the failed set. -/
theorem skipDependentTasks_marks (st : LState) (fid d : String)
    (hd : d ∈ skipBfs st.g (traverseFuel st.g) (depsOf st.g fid) [])
    (hs : (List.lookup d st.g.tasks).isSome) :
    SkippedMarked (skipDependentTasks st fid) fid d :=
  foldl_markSkipped_marks fid _ st d hd hs

/-! ### Transitive dependents over the recorded edges -/

/-- `d` is a transitive dependent of `a` over the recorded `dependents`
adjacency (the edges that survived `loadPlan`'s dangling-edge drop). -/
inductive ReachesDep (g : GState) : String → String → Prop where
  | head {a b : String} : b ∈ depsOf g a → ReachesDep g a b
  | tail {a b c : String} : ReachesDep g a b → c ∈ depsOf g b →
      ReachesDep g a c

/-! ### Concrete scenarios -/

/-- A plan task with only id and dependencies distinguished. -/
def planTask (id : String) (deps : List String) : PTask :=
  { id := id, filePath := id ++ ".ts", description := "build " ++ id,
    dependencies := deps, priority := none, maxAttempts := none,
    result := none }

/-- C1 failing input: one task, `maxConcurrency = 1`, two attempts
allowed, executor that throws. -/
def c1opts : SOptions := { maxConcurrency := 1, defaultMaxAttempts := 2 }

def c1plan : List PTask := [planTask "t" []]

def c1beh : Beh := fun _ _ => .error "executor failure"

def c1s0 : LState := startState c1opts (loadPlan c1opts c1plan)

def c1s1 : LState := stepThread c1beh c1s0 0

def c1s2 : LState := stepThread c1beh c1s1 0

def c1s3 : LState := stepThread c1beh c1s2 0

theorem c1_loop_never_settles : ∀ fuel,
    (schedLoop c1beh fuel c1s0).settled = false ∧
    (schedLoop c1beh fuel c1s1).settled = false ∧
    (schedLoop c1beh fuel c1s2).settled = false ∧
    (schedLoop c1beh fuel c1s3).settled = false := by
  intro fuel
  induction fuel with
  | zero => exact ⟨rfl, rfl, rfl, rfl⟩
  | succ n ih =>
      obtain ⟨h0, h1, h2, h3⟩ := ih
      have e0 : loopFinished c1s0 = false := by decide
      have e1 : loopFinished c1s1 = false := by decide
      have e2 : loopFinished c1s2 = false := by decide
      have e3 : loopFinished c1s3 = false := by decide
      have f0 : findRunnable c1s0.threads = some 0 := by decide
      have f1 : findRunnable c1s1.threads = some 0 := by decide
      have f2 : findRunnable c1s2.threads = some 0 := by decide
      have f3 : findRunnable c1s3.threads = none := by decide
      refine ⟨?_, ?_, ?_, ?_⟩
      · rw [schedLoop_succ, e0]; simp only [Bool.false_eq_true, if_false, f0]
        exact h1
      · rw [schedLoop_succ, e1]; simp only [Bool.false_eq_true, if_false, f1]
        exact h2
      · rw [schedLoop_succ, e2]; simp only [Bool.false_eq_true, if_false, f2]
        exact h3
      · rw [schedLoop_succ, e3]; simp only [Bool.false_eq_true, if_false, f3]
        rfl

/-- C1: for the acyclic single-task plan `c1plan` with
`maxConcurrency = 1` and an executor that throws on the first attempt
(`maxAttempts = 2`, so the scheduler retries), `run()` never settles: the
retrying chain holds its original permit while `scheduleTask` requests a
second one, the semaphore FIFO waits on a release that only that same
chain's `finally` blocks can perform, and `waitForCompletion` polls
forever with the task QUEUED.  The final machine state has the task
QUEUED, zero free permits, the single thread parked in the semaphore
queue, and no continuation runnable, so no fuel bound makes `run()`
resolve or reject.  This refutes "run() terminates for every
maxConcurrency ≥ 1 including the retry path". -/
theorem c1_run_never_settles_on_retry_with_full_semaphore :
    hasCircularDependency (loadPlan c1opts c1plan) = false ∧
    c1opts.maxConcurrency = 1 ∧
    (∀ fuel, (runScheduler c1opts c1beh c1plan fuel).settled = false) ∧
    schedLoop c1beh 5 c1s0 = .stuck c1s3 ∧
    statusOf c1s3 "t" = some .queued ∧
    c1s3.available = 0 ∧ c1s3.waiting = [0] ∧
    findRunnable c1s3.threads = none ∧ loopFinished c1s3 = false := by
  refine ⟨by decide, rfl, ?_, by decide, by decide, by decide, by decide,
    by decide, by decide⟩
  intro fuel
  have : runScheduler c1opts c1beh c1plan fuel = schedLoop c1beh fuel c1s0 := rfl
  rw [this]
  exact (c1_loop_never_settles fuel).1

/-- C4 concrete cyclic plan: `x` depends on `y`, `y` depends on `x`. -/
def c4plan : List PTask := [planTask "x" ["y"], planTask "y" ["x"]]

/-- C4: whenever the loaded plan's dependency graph has a cycle, `run()`
throws `"Circular dependency detected in task plan"` (whose message
contains `"Circular dependency"`) before any task is scheduled, so the
executor is never invoked (the invocation log of the resulting state is
empty); the two-task cycle `x ↔ y` is such a plan. -/
theorem c4_cycle_throws_without_invoking_executor :
    (∀ (opts : SOptions) (beh : Beh) (pl : List PTask) (fuel : Nat),
        hasCircularDependency (loadPlan opts pl) = true →
        runScheduler opts beh pl fuel =
          .threw "Circular dependency detected in task plan"
            (mkL opts (loadPlan opts pl)) ∧
        (runScheduler opts beh pl fuel).state.log = []) ∧
    strHasSub "Circular dependency detected in task plan"
      "Circular dependency" = true ∧
    hasCircularDependency (loadPlan {} c4plan) = true := by
  refine ⟨?_, by decide, by decide⟩
  intro opts beh pl fuel h
  unfold runScheduler runCore
  rw [h]
  exact ⟨rfl, rfl⟩

/-- Witness for C4's general part at the concrete cyclic plan. -/
theorem c4_cycle_throws_without_invoking_executor_witness :
    runScheduler {} (fun _ _ => .ok "") c4plan 5 =
      .threw "Circular dependency detected in task plan"
        (mkL {} (loadPlan {} c4plan)) ∧
    (runScheduler {} (fun _ _ => .ok "") c4plan 5).state.log = [] :=
  (c4_cycle_throws_without_invoking_executor.1 {} (fun _ _ => .ok "")
    c4plan 5 (by decide))

/-- C5 scenario: `p` always throws (one attempt), `c` depends on `p`,
`g` depends on `c`. -/
def c5opts : SOptions := { maxConcurrency := 3, defaultMaxAttempts := 1 }

def c5plan : List PTask := [planTask "p" [], planTask "c" ["p"],
  planTask "g" ["c"]]

def c5beh : Beh := fun _ _ => .error "boom"

def c5run : RunResult := runScheduler c5opts c5beh c5plan 50

/-- C5: cascading skip.  Generally, every descendant visited by the
`skipDependentTasks` BFS ends SKIPPED with
`"Skipped due to failed dependency: <failedId>"` naming the failed task
and joins the failed set (`skipDependentTasks_marks`).  Concretely for
the plan `p ← c ← g` with an always-throwing executor and one attempt:
`run()` rejects with "3 task(s) failed: p, c, g", the summary is
FAILED=1, SKIPPED=2, COMPLETED=0, both transitive dependents `c` and `g`
of `p` (and nothing else) are its transitive dependents, and both end
SKIPPED with the error naming `p`. -/
theorem c5_cascading_skip :
    (∀ (st : LState) (fid d : String),
        d ∈ skipBfs st.g (traverseFuel st.g) (depsOf st.g fid) [] →
        (List.lookup d st.g.tasks).isSome →
        SkippedMarked (skipDependentTasks st fid) fid d) ∧
    c5run.msg = some "3 task(s) failed: p, c, g" ∧
    countStatus c5run.state .failed = 1 ∧
    countStatus c5run.state .skipped = 2 ∧
    countStatus c5run.state .completed = 0 ∧
    statusOf c5run.state "p" = some .failed ∧
    errorOf c5run.state "c" =
      some "Skipped due to failed dependency: p" ∧
    errorOf c5run.state "g" =
      some "Skipped due to failed dependency: p" ∧
    strHasSub "Skipped due to failed dependency: p"
      "Skipped due to failed dependency: p" = true ∧
    c5run.state.g.failedT = ["p", "c", "g"] ∧
    ReachesDep (loadPlan c5opts c5plan) "p" "c" ∧
    ReachesDep (loadPlan c5opts c5plan) "p" "g" ∧
    (∀ d, ReachesDep (loadPlan c5opts c5plan) "p" d → d = "c" ∨ d = "g") := by
  refine ⟨skipDependentTasks_marks, by decide, by decide, by decide,
    by decide, by decide, by decide, by decide, by decide, by decide,
    ?_, ?_, ?_⟩
  · exact @ReachesDep.head _ "p" "c" (by decide)
  · exact @ReachesDep.tail _ "p" "c" "g"
      (@ReachesDep.head _ "p" "c" (by decide)) (by decide)
  · intro d h
    have ep : depsOf (loadPlan c5opts c5plan) "p" = ["c"] := by decide
    have ec : depsOf (loadPlan c5opts c5plan) "c" = ["g"] := by decide
    have eg : depsOf (loadPlan c5opts c5plan) "g" = [] := by decide
    induction h with
    | head hb => left; rw [ep] at hb; simpa using hb
    | tail hab hbc ih =>
        rcases ih with rfl | rfl
        · right; rw [ec] at hbc; simpa using hbc
        · rw [eg] at hbc; simp at hbc

/-- Witness for C5's general part: the skip lemma applied to the state
reached when `p` has just failed in the concrete scenario. -/
theorem c5_cascading_skip_witness :
    SkippedMarked
      (skipDependentTasks (stepThread c5beh
        (startState c5opts (loadPlan c5opts c5plan)) 0) "p") "p" "c" :=
  c5_cascading_skip.1 _ "p" "c" (by decide) (by decide)

/-- C2 counterexample input: one task declaring `maxAttempts = 0`
(`0 ?? defaultMaxAttempts` keeps 0), with a succeeding executor. -/
def c2cePlan : List PTask :=
  [{ planTask "t" [] with maxAttempts := some 0 }]

def c2ceBeh : Beh := fun _ _ => .ok "r"

def c2ceRun : RunResult := runScheduler {} c2ceBeh c2cePlan 50

/-- C2 counterexample: with `maxAttempts = 0`, `scheduleTask` still
queues the task and `executeTask` increments `attempts` to 1 and invokes
the executor once before any bound is consulted.  So over the run the
executor is invoked 1 > 0 = maxAttempts times, and `attempts = 1` exceeds
`maxAttempts = 0`, refuting "attempts ≤ maxAttempts at every point" and
"invoked at most maxAttempts times" as claimed for every declared
value including 0.  (The task even completes.) -/
theorem c2_counterexample_maxAttempts_zero :
    (List.lookup "t" c2ceRun.state.g.tasks).map STask.maxAttempts =
      some 0 ∧
    countLog c2ceRun.state.log "t" = 1 ∧
    (List.lookup "t" c2ceRun.state.g.tasks).map STask.attempts = some 1 ∧
    statusOf c2ceRun.state "t" = some .completed ∧
    c2ceRun.settled = true := by
  refine ⟨by decide, by decide, by decide, by decide, by decide⟩

/-! ### Reachable states of a run

`stepOnce` is the event-loop transition of a `run()` in progress (the
same transition `schedLoop` iterates); `Reach beh s₀ s` holds for every
state the machine passes through.  The invariants below are proved for
all reachable states, for every plan, option record and executor
behaviour. -/

def stepOnce (beh : Beh) (st : LState) : Option LState :=
  if loopFinished st then none
  else (findRunnable st.threads).map (stepThread beh st)

inductive Reach (beh : Beh) (s₀ : LState) : LState → Prop where
  | refl : Reach beh s₀ s₀
  | step {a b : LState} : Reach beh s₀ a → stepOnce beh a = some b →
      Reach beh s₀ b

/-! ### List-level lemmas -/

theorem lmodify_length {α : Type} (l : List α) (i : Nat) (f : α → α) :
    (lmodify l i f).length = l.length := by
  induction l generalizing i with
  | nil => simp [lmodify]
  | cons a t ih =>
      cases i with
      | zero => simp [lmodify]
      | succ n => simp [lmodify, ih]

theorem get?_lmodify_self {α : Type} (l : List α) (i : Nat) (f : α → α) :
    (lmodify l i f).get? i = (l.get? i).map f := by
  induction l generalizing i with
  | nil => simp [lmodify]
  | cons a t ih =>
      cases i with
      | zero => simp [lmodify]
      | succ n => simpa [lmodify] using ih n

theorem get?_lmodify_ne {α : Type} (l : List α) (i j : Nat) (f : α → α)
    (h : j ≠ i) : (lmodify l i f).get? j = l.get? j := by
  induction l generalizing i j with
  | nil => simp [lmodify]
  | cons a t ih =>
      cases i with
      | zero =>
          cases j with
          | zero => exact absurd rfl h
          | succ m => simp [lmodify]
      | succ n =>
          cases j with
          | zero => simp [lmodify]
          | succ m =>
              have : m ≠ n := fun e => h (by rw [e])
              simpa [lmodify] using ih n m this

theorem map_lmodify {α β : Type} (l : List α) (i : Nat) (f : α → α)
    (g : α → β) (hf : ∀ a, g (f a) = g a) :
    (lmodify l i f).map g = l.map g := by
  induction l generalizing i with
  | nil => simp [lmodify]
  | cons a t ih =>
      cases i with
      | zero => simp [lmodify, hf]
      | succ n => simp [lmodify, ih]

def heldSum (threads : List Thread) : Nat := (threads.map Thread.held).sum

theorem heldSum_append (l₁ l₂ : List Thread) :
    heldSum (l₁ ++ l₂) = heldSum l₁ + heldSum l₂ := by
  simp [heldSum]

theorem heldSum_lmodify (l : List Thread) (i : Nat) (f : Thread → Thread)
    (th : Thread) (h : l.get? i = some th) :
    heldSum (lmodify l i f) + th.held = heldSum l + (f th).held := by
  induction l generalizing i with
  | nil => simp at h
  | cons a t ih =>
      cases i with
      | zero =>
          have ha : a = th := Option.some.inj h
          subst ha
          simp [lmodify, heldSum]
          omega
      | succ n =>
          have := ih n h
          simp [lmodify, heldSum] at this ⊢
          omega

theorem length_filter_le_heldSum (l : List Thread) (P : Thread → Bool)
    (h : ∀ th ∈ l, P th = true → 1 ≤ th.held) :
    (l.filter P).length ≤ heldSum l := by
  induction l with
  | nil => simp [heldSum]
  | cons a t ih =>
      have ht : ∀ th ∈ t, P th = true → 1 ≤ th.held :=
        fun th hm => h th (List.mem_cons_of_mem _ hm)
      have iht := ih ht
      simp only [heldSum] at iht
      cases hp : P a
      · simp [List.filter_cons, hp, heldSum]
        omega
      · have ha : 1 ≤ a.held := h a (List.mem_cons_self _ _) hp
        simp [List.filter_cons, hp, heldSum]
        omega

theorem countLog_append (log : List (String × Nat)) (e : String × Nat)
    (id : String) :
    countLog (log ++ [e]) id =
      countLog log id + (if e.1 = id then 1 else 0) := by
  by_cases h : e.1 = id <;> simp [countLog, List.filter_append, h]

theorem mem_of_lookup {α : Type} {l : List (String × α)} {k : String}
    {v : α} (h : List.lookup k l = some v) : (k, v) ∈ l := by
  induction l with
  | nil => simp [List.lookup] at h
  | cons p t ih =>
      obtain ⟨k₁, v₁⟩ := p
      by_cases hk : k = k₁
      · subst hk
        simp [List.lookup] at h
        simp [h]
      · have hb : (k == k₁) = false := by simp [beq_iff_eq]; exact hk
        simp only [List.lookup, hb] at h
        exact List.mem_cons_of_mem _ (ih h)

theorem lookup_of_mem_nodup {α : Type} {l : List (String × α)} {k : String}
    {v : α} (hnd : (l.map Prod.fst).Nodup) (h : (k, v) ∈ l) :
    List.lookup k l = some v := by
  induction l with
  | nil => simp at h
  | cons p t ih =>
      obtain ⟨k₁, v₁⟩ := p
      simp only [List.map, List.nodup_cons] at hnd
      rcases List.mem_cons.mp h with he | hm
      · injection he with e1 e2
        subst e1; subst e2
        simp [List.lookup]
      · have hk : k ≠ k₁ := by
          intro e
          subst e
          exact hnd.1 (List.mem_map_of_mem Prod.fst hm)
        have hb : (k == k₁) = false := by simp [beq_iff_eq]; exact hk
        simp only [List.lookup, hb]
        exact ih hnd.2 hm

theorem keys_amod {α : Type} (l : List (String × α)) (k : String)
    (f : α → α) : (amod l k f).map Prod.fst = l.map Prod.fst := by
  induction l with
  | nil => simp [amod]
  | cons p t ih =>
      obtain ⟨k₁, v₁⟩ := p
      by_cases hk : k₁ = k
      · subst hk; simp [amod]
      · simp [amod, if_neg hk, ih]

/-! ### The run invariant -/

/-- Phases whose thread is in the middle of `executeTask` for a possibly
RUNNING task (executor pending, or sleeping before a retry). -/
def coverPhase : TPhase → Bool
  | .awaitExec | .retrying => true
  | _ => false

/-- Attempt-count bound required of a thread in each phase (the phases
before an attempt may still start demand strict room below the ceiling
`max 1 maxAttempts`; `retrying` was guarded by `attempts < maxAttempts`). -/
def phaseAttOK (st : LState) (th : Thread) : Prop :=
  ∀ t, List.lookup th.tid st.g.tasks = some t →
    match th.phase with
    | .startExec => t.attempts < max 1 t.maxAttempts
    | .blocked => t.attempts < max 1 t.maxAttempts
    | .awaitExec => 1 ≤ t.attempts ∧ t.attempts ≤ max 1 t.maxAttempts
    | .retrying => t.attempts < t.maxAttempts
    | .done => True

/-- Invariant of every state a scheduler run passes through; `cap` is
`options.maxConcurrency` and `deficit` counts permits that have been
taken out of a finished thread's `held` field but whose
`semaphore.release()` calls are still pending (it is 0 at every step
boundary and only nonzero inside `finishThread`'s release chain). -/
structure InvD (cap deficit : Nat) (st : LState) : Prop where
  keysND : (st.g.tasks.map Prod.fst).Nodup
  depClosed : ∀ p cs, List.lookup p st.g.dependents = some cs →
      ∀ c ∈ cs, (List.lookup c st.g.tasks).isSome
  permits : st.available + heldSum st.threads + deficit = cap
  heldPos : ∀ i th, st.threads.get? i = some th →
      runnablePhase th.phase = true → 1 ≤ th.held
  runCov : ∀ id t, List.lookup id st.g.tasks = some t →
      t.status = .running →
      ∃ i th, st.threads.get? i = some th ∧ th.tid = id ∧
        coverPhase th.phase = true
  tidsND : (st.threads.map Thread.tid).Nodup
  notPending : ∀ i th, st.threads.get? i = some th →
      ∀ t, List.lookup th.tid st.g.tasks = some t → t.status ≠ .pending
  pendZero : ∀ id t, List.lookup id st.g.tasks = some t →
      t.status = .pending → t.attempts = 0
  phaseAtt : ∀ i th, st.threads.get? i = some th → phaseAttOK st th
  attBound : ∀ id t, List.lookup id st.g.tasks = some t →
      t.attempts ≤ max 1 t.maxAttempts
  logCnt : ∀ id t, List.lookup id st.g.tasks = some t →
      countLog st.log id = t.attempts
  waitBlocked : ∀ j ∈ st.waiting, ∃ th, st.threads.get? j = some th ∧
      th.phase = .blocked
  waitND : st.waiting.Nodup

/-- The run invariant proper: no release is pending between steps. -/
abbrev Inv (cap : Nat) (st : LState) : Prop := InvD cap 0 st

/-- Transport of the invariant across states that agree on every field
it mentions (the indegree map is not constrained by it). -/
theorem invD_congr {cap n : Nat} {st st' : LState} (h : InvD cap n st)
    (h1 : st'.g.tasks = st.g.tasks) (h2 : st'.g.dependents = st.g.dependents)
    (h3 : st'.available = st.available) (h4 : st'.threads = st.threads)
    (h5 : st'.waiting = st.waiting) (h6 : st'.log = st.log) :
    InvD cap n st' := by
  obtain ⟨a1, a2, a3, a4, a5, a6, a7, a8, a9, a10, a11, a12, a13⟩ := h
  exact ⟨by rw [h1]; exact a1, by rw [h2, h1]; exact a2,
    by rw [h3, h4]; exact a3, by rw [h4]; exact a4,
    by rw [h1, h4]; exact a5, by rw [h4]; exact a6,
    by rw [h4, h1]; exact a7, by rw [h1]; exact a8,
    by rw [h4]; intro i th hi; rw [show phaseAttOK st' th = phaseAttOK st th
      from by unfold phaseAttOK; rw [h1]]; exact a9 i th hi,
    by rw [h1]; exact a10, by rw [h1, h6]; exact a11,
    by rw [h5, h4]; exact a12, by rw [h5]; exact a13⟩

theorem lookup_amod_isSome {α : Type} (l : List (String × α)) (k x : String)
    (f : α → α) :
    (List.lookup x (amod l k f)).isSome = (List.lookup x l).isSome := by
  by_cases hx : x = k
  · subst hx
    rw [lookup_amod_self]
    cases List.lookup x l <;> simp
  · rw [lookup_amod_ne _ _ _ _ hx]

theorem get?_snoc_cases {α : Type} {l : List α} {x th : α} {k : Nat}
    (h : (l ++ [x]).get? k = some th) :
    l.get? k = some th ∨ (k = l.length ∧ th = x) := by
  by_cases hk : k < l.length
  · left; rw [← List.get?_append hk]; exact h
  · right
    have hlen : k < l.length + 1 := by
      have := List.get?_eq_some.mp h
      obtain ⟨hb, _⟩ := this
      simpa using hb
    have hke : k = l.length := by omega
    subst hke
    rw [List.get?_concat_length] at h
    exact ⟨rfl, (Option.some.inj h).symm⟩

theorem get?_some_lt {α : Type} {l : List α} {k : Nat} {a : α}
    (h : l.get? k = some a) : k < l.length := by
  obtain ⟨hb, _⟩ := List.get?_eq_some.mp h
  exact hb

theorem get?_lmodify_of_get? {α : Type} {l : List α} {i : Nat} {a : α}
    (f : α → α) (h : l.get? i = some a) :
    (lmodify l i f).get? i = some (f a) := by
  rw [get?_lmodify_self, h]
  rfl

/-- One pending `release()` performed: either the permit returns to the
pool or the first FIFO waiter is woken into `executeTask`. -/
theorem invD_releaseOne {cap n : Nat} {st : LState}
    (h : InvD cap (n + 1) st) : InvD cap n (releaseOne st) := by
  obtain ⟨a1, a2, a3, a4, a5, a6, a7, a8, a9, a10, a11, a12, a13⟩ := h
  cases hw : st.waiting with
  | nil =>
      have he : releaseOne st = { st with available := st.available + 1 } := by
        unfold releaseOne
        rw [hw]
      rw [he]
      refine ⟨a1, a2, ?_, a4, a5, a6, a7, a8, a9, a10, a11, a12, a13⟩
      show st.available + 1 + heldSum st.threads + n = cap
      omega
  | cons j rest =>
      obtain ⟨thj, hgj, hbj⟩ := a12 j (by rw [hw]; exact List.mem_cons_self _ _)
      set f : Thread → Thread :=
        fun th => { th with phase := .startExec, held := th.held + 1 } with hf
      have he : releaseOne st =
          { st with waiting := rest, threads := lmodify st.threads j f } := by
        unfold releaseOne
        rw [hw]
      rw [he]
      have hsum := heldSum_lmodify st.threads j f thj hgj
      have hjget := get?_lmodify_of_get? f hgj
      have hrest : ∀ k ∈ rest, k ≠ j := by
        intro k hk e
        subst e
        rw [hw] at a13
        exact (List.nodup_cons.mp a13).1 hk
      refine ⟨a1, a2, ?_, ?_, ?_, ?_, ?_, a8, ?_, a10, a11, ?_, ?_⟩
      · show st.available + heldSum (lmodify st.threads j f) + n = cap
        have hfh : (f thj).held = thj.held + 1 := rfl
        omega
      · intro k th hk hr
        have hk' : (lmodify st.threads j f).get? k = some th := hk
        by_cases hkj : k = j
        · subst hkj
          rw [hjget] at hk'
          cases Option.some.inj hk'
          show 1 ≤ thj.held + 1
          omega
        · rw [get?_lmodify_ne _ _ _ _ hkj] at hk'
          exact a4 k th hk' hr
      · intro id t hl hr
        have hl' : List.lookup id st.g.tasks = some t := hl
        obtain ⟨k, th, hk, htid, hcov⟩ := a5 id t hl' hr
        by_cases hkj : k = j
        · subst hkj
          rw [hgj] at hk
          cases Option.some.inj hk
          rw [hbj] at hcov
          simp [coverPhase] at hcov
        · refine ⟨k, th, ?_, htid, hcov⟩
          show (lmodify st.threads j f).get? k = some th
          rw [get?_lmodify_ne _ _ _ _ hkj]
          exact hk
      · show (List.map Thread.tid (lmodify st.threads j f)).Nodup
        rw [map_lmodify st.threads j f Thread.tid (fun a => rfl)]
        exact a6
      · intro k th hk t hl
        have hk' : (lmodify st.threads j f).get? k = some th := hk
        have hl' : List.lookup th.tid st.g.tasks = some t := hl
        by_cases hkj : k = j
        · subst hkj
          rw [hjget] at hk'
          cases Option.some.inj hk'
          exact a7 _ thj hgj t hl'
        · rw [get?_lmodify_ne _ _ _ _ hkj] at hk'
          exact a7 k th hk' t hl'
      · intro k th hk
        have hk' : (lmodify st.threads j f).get? k = some th := hk
        by_cases hkj : k = j
        · subst hkj
          rw [hjget] at hk'
          cases Option.some.inj hk'
          have h1 := a9 _ thj hgj
          unfold phaseAttOK at h1 ⊢
          intro t hl
          have hl' : List.lookup thj.tid st.g.tasks = some t := hl
          have h2 := h1 t hl'
          rw [hbj] at h2
          exact h2
        · rw [get?_lmodify_ne _ _ _ _ hkj] at hk'
          have h1 := a9 k th hk'
          unfold phaseAttOK at h1 ⊢
          exact h1
      · intro k hk
        have hk' : k ∈ rest := hk
        obtain ⟨th, hg, hb⟩ := a12 k
          (by rw [hw]; exact List.mem_cons_of_mem _ hk')
        refine ⟨th, ?_, hb⟩
        show (lmodify st.threads j f).get? k = some th
        rw [get?_lmodify_ne _ _ _ _ (hrest k hk')]
        exact hg
      · show rest.Nodup
        rw [hw] at a13
        exact (List.nodup_cons.mp a13).2

theorem invD_releaseN {cap : Nat} :
    ∀ (n : Nat) (st : LState), InvD cap n st → InvD cap 0 (releaseN st n)
  | 0, _, h => h
  | n + 1, st, h => invD_releaseN n (releaseOne st) (invD_releaseOne h)

/-- The full `finally` unwind of a terminal thread: mark it done and
perform all its pending releases.  The thread must not be the cover of a
still-RUNNING task and must not sit in the semaphore queue. -/
theorem inv_finishThread {cap : Nat} {st : LState} {i : Nat} {th : Thread}
    (h : Inv cap st) (hth : st.threads.get? i = some th)
    (hnb : th.phase ≠ .blocked)
    (hnr : ∀ t, List.lookup th.tid st.g.tasks = some t →
      t.status ≠ .running) :
    Inv cap (finishThread st i th.held) := by
  obtain ⟨a1, a2, a3, a4, a5, a6, a7, a8, a9, a10, a11, a12, a13⟩ := h
  apply invD_releaseN
  set f : Thread → Thread := fun th => { th with phase := .done, held := 0 }
    with hf
  have hsum := heldSum_lmodify st.threads i f th hth
  have higet := get?_lmodify_of_get? f hth
  show InvD cap th.held { st with threads := lmodify st.threads i f }
  refine ⟨a1, a2, ?_, ?_, ?_, ?_, ?_, a8, ?_, a10, a11, ?_, a13⟩
  · show st.available + heldSum (lmodify st.threads i f) + th.held = cap
    have hfh : (f th).held = 0 := rfl
    omega
  · intro k th' hk hr
    have hk' : (lmodify st.threads i f).get? k = some th' := hk
    by_cases hki : k = i
    · subst hki
      rw [higet] at hk'
      cases Option.some.inj hk'
      simp [runnablePhase] at hr
    · rw [get?_lmodify_ne _ _ _ _ hki] at hk'
      exact a4 k th' hk' hr
  · intro id t hl hr
    have hl' : List.lookup id st.g.tasks = some t := hl
    obtain ⟨k, th', hk, htid, hcov⟩ := a5 id t hl' hr
    by_cases hki : k = i
    · subst hki
      rw [hth] at hk
      cases Option.some.inj hk
      rw [← htid] at hl'
      exact absurd hr (hnr t hl')
    · refine ⟨k, th', ?_, htid, hcov⟩
      show (lmodify st.threads i f).get? k = some th'
      rw [get?_lmodify_ne _ _ _ _ hki]
      exact hk
  · show (List.map Thread.tid (lmodify st.threads i f)).Nodup
    rw [map_lmodify st.threads i f Thread.tid (fun a => rfl)]
    exact a6
  · intro k th' hk t hl
    have hk' : (lmodify st.threads i f).get? k = some th' := hk
    have hl' : List.lookup th'.tid st.g.tasks = some t := hl
    by_cases hki : k = i
    · subst hki
      rw [higet] at hk'
      cases Option.some.inj hk'
      exact a7 _ th hth t hl'
    · rw [get?_lmodify_ne _ _ _ _ hki] at hk'
      exact a7 k th' hk' t hl'
  · intro k th' hk
    have hk' : (lmodify st.threads i f).get? k = some th' := hk
    by_cases hki : k = i
    · subst hki
      rw [higet] at hk'
      cases Option.some.inj hk'
      unfold phaseAttOK
      intro t _
      exact trivial
    · rw [get?_lmodify_ne _ _ _ _ hki] at hk'
      have h1 := a9 k th' hk'
      unfold phaseAttOK at h1 ⊢
      exact h1
  · intro j hj
    have hj' : j ∈ st.waiting := hj
    have hji : j ≠ i := by
      intro e
      subst e
      obtain ⟨th', hg', hb'⟩ := a12 j hj'
      rw [hth] at hg'
      cases Option.some.inj hg'
      exact hnb hb'
    obtain ⟨th', hg', hb'⟩ := a12 j hj'
    refine ⟨th', ?_, hb'⟩
    show (lmodify st.threads i f).get? j = some th'
    rw [get?_lmodify_ne _ _ _ _ hji]
    exact hg'

theorem spawnTask_lookup_ne (st : LState) (c d : String) (h : d ≠ c) :
    List.lookup d (spawnTask st c).g.tasks = List.lookup d st.g.tasks := by
  unfold spawnTask
  split
  · exact lookup_amod_ne _ _ _ _ h
  · exact lookup_amod_ne _ _ _ _ h

/-- The synchronous part of `scheduleTask` on a fresh PENDING task
preserves the invariant. -/
theorem inv_spawn {cap : Nat} {st : LState} {c : String} {tc : STask}
    (h : Inv cap st) (hc : List.lookup c st.g.tasks = some tc)
    (hp : tc.status = .pending) : Inv cap (spawnTask st c) := by
  obtain ⟨a1, a2, a3, a4, a5, a6, a7, a8, a9, a10, a11, a12, a13⟩ := h
  have hnotid : ∀ k th, st.threads.get? k = some th → th.tid ≠ c := by
    intro k th hk e
    exact a7 k th hk tc (by rw [e]; exact hc) hp
  set qf : STask → STask := fun t => { t with status := .queued } with hqf
  have hlc : List.lookup c (amod st.g.tasks c qf) = some (qf tc) := by
    rw [lookup_amod_self, hc]
    rfl
  have hcases : ∀ id t, List.lookup id (amod st.g.tasks c qf) = some t →
      (id = c ∧ t = qf tc) ∨
      (id ≠ c ∧ List.lookup id st.g.tasks = some t) := by
    intro id t hl
    by_cases hid : id = c
    · rw [hid, hlc] at hl
      exact Or.inl ⟨hid, (Option.some.inj hl).symm⟩
    · rw [lookup_amod_ne _ _ _ _ hid] at hl
      exact Or.inr ⟨hid, hl⟩
  have hattc : tc.attempts = 0 := a8 c tc hc hp
  have hcnotin : c ∉ List.map Thread.tid st.threads := by
    intro hmem
    obtain ⟨th, hthm, e⟩ := List.mem_map.mp hmem
    obtain ⟨k, hk⟩ := List.mem_iff_get?.mp hthm
    exact hnotid k th hk e
  have hkeysND : (List.map Prod.fst (amod st.g.tasks c qf)).Nodup := by
    rw [keys_amod]
    exact a1
  have hdep : ∀ p cs, List.lookup p st.g.dependents = some cs →
      ∀ d ∈ cs, (List.lookup d (amod st.g.tasks c qf)).isSome = true := by
    intro p cs hlp d hd
    rw [lookup_amod_isSome]
    exact a2 p cs hlp d hd
  have hpend : ∀ id t, List.lookup id (amod st.g.tasks c qf) = some t →
      t.status = .pending → t.attempts = 0 := by
    intro id t hl hpd
    rcases hcases id t hl with ⟨_, rfl⟩ | ⟨_, hold⟩
    · simp [hqf] at hpd
    · exact a8 id t hold hpd
  have hbound : ∀ id t, List.lookup id (amod st.g.tasks c qf) = some t →
      t.attempts ≤ max 1 t.maxAttempts := by
    intro id t hl
    rcases hcases id t hl with ⟨_, rfl⟩ | ⟨_, hold⟩
    · exact a10 c tc hc
    · exact a10 id t hold
  have hlog : ∀ id t, List.lookup id (amod st.g.tasks c qf) = some t →
      countLog st.log id = t.attempts := by
    intro id t hl
    rcases hcases id t hl with ⟨he1, rfl⟩ | ⟨_, hold⟩
    · rw [he1]
      exact a11 c tc hc
    · exact a11 id t hold
  by_cases hav : 0 < st.available
  · have he : spawnTask st c = { st with
        g := { st.g with tasks := amod st.g.tasks c qf },
        available := st.available - 1,
        threads := st.threads ++ [Thread.mk c .startExec 1] } := by
      unfold spawnTask
      rw [if_pos hav]
    rw [he]
    refine ⟨hkeysND, hdep, ?_, ?_, ?_, ?_, ?_, hpend, ?_, hbound, hlog,
      ?_, a13⟩
    · show st.available - 1 +
        heldSum (st.threads ++ [Thread.mk c .startExec 1]) + 0 = cap
      rw [heldSum_append]
      show st.available - 1 + (heldSum st.threads + 1) + 0 = cap
      omega
    · intro k th hk hr
      have hk' : (st.threads ++ [Thread.mk c .startExec 1]).get? k =
        some th := hk
      rcases get?_snoc_cases hk' with hold | ⟨_, rfl⟩
      · exact a4 k th hold hr
      · exact le_refl 1
    · intro id t hl hr
      have hl' : List.lookup id (amod st.g.tasks c qf) = some t := hl
      rcases hcases id t hl' with ⟨_, rfl⟩ | ⟨_, hold⟩
      · simp [hqf, hp] at hr
      · obtain ⟨k, th, hk, htid, hcov⟩ := a5 id t hold hr
        refine ⟨k, th, ?_, htid, hcov⟩
        show (st.threads ++ [Thread.mk c .startExec 1]).get? k = some th
        rw [List.get?_append (get?_some_lt hk)]
        exact hk
    · show (List.map Thread.tid
        (st.threads ++ [Thread.mk c .startExec 1])).Nodup
      rw [List.map_append]
      rw [List.nodup_append]
      refine ⟨a6, List.nodup_singleton c, ?_⟩
      intro x hx hxc
      simp at hxc
      subst hxc
      exact hcnotin hx
    · intro k th hk t hl
      have hk' : (st.threads ++ [Thread.mk c .startExec 1]).get? k =
        some th := hk
      have hl' : List.lookup th.tid (amod st.g.tasks c qf) = some t := hl
      rcases get?_snoc_cases hk' with hold | ⟨_, rfl⟩
      · rw [lookup_amod_ne _ _ _ _ (hnotid k th hold)] at hl'
        exact a7 k th hold t hl'
      · rcases hcases _ t hl' with ⟨_, rfl⟩ | ⟨hne, _⟩
        · simp [hqf]
        · exact absurd rfl hne
    · intro k th hk
      have hk' : (st.threads ++ [Thread.mk c .startExec 1]).get? k =
        some th := hk
      rcases get?_snoc_cases hk' with hold | ⟨_, rfl⟩
      · unfold phaseAttOK
        intro t hl
        have hl' : List.lookup th.tid (amod st.g.tasks c qf) = some t := hl
        rw [lookup_amod_ne _ _ _ _ (hnotid k th hold)] at hl'
        exact a9 k th hold t hl'
      · unfold phaseAttOK
        intro t hl
        have hl' : List.lookup c (amod st.g.tasks c qf) = some t := hl
        rw [hlc] at hl'
        cases Option.some.inj hl'
        show (qf tc).attempts < max 1 (qf tc).maxAttempts
        have h2 : 1 ≤ max 1 (qf tc).maxAttempts := le_max_left _ _
        have h1 : (qf tc).attempts = 0 := hattc
        omega
    · intro j hj
      have hj' : j ∈ st.waiting := hj
      obtain ⟨th, hg, hb⟩ := a12 j hj'
      refine ⟨th, ?_, hb⟩
      show (st.threads ++ [Thread.mk c .startExec 1]).get? j = some th
      rw [List.get?_append (get?_some_lt hg)]
      exact hg
  · have he : spawnTask st c = { st with
        g := { st.g with tasks := amod st.g.tasks c qf },
        threads := st.threads ++ [Thread.mk c .blocked 0],
        waiting := st.waiting ++ [st.threads.length] } := by
      unfold spawnTask
      rw [if_neg hav]
    rw [he]
    refine ⟨hkeysND, hdep, ?_, ?_, ?_, ?_, ?_, hpend, ?_, hbound, hlog,
      ?_, ?_⟩
    · show st.available +
        heldSum (st.threads ++ [Thread.mk c .blocked 0]) + 0 = cap
      rw [heldSum_append]
      show st.available + (heldSum st.threads + 0) + 0 = cap
      omega
    · intro k th hk hr
      have hk' : (st.threads ++ [Thread.mk c .blocked 0]).get? k =
        some th := hk
      rcases get?_snoc_cases hk' with hold | ⟨_, rfl⟩
      · exact a4 k th hold hr
      · simp [runnablePhase] at hr
    · intro id t hl hr
      have hl' : List.lookup id (amod st.g.tasks c qf) = some t := hl
      rcases hcases id t hl' with ⟨_, rfl⟩ | ⟨_, hold⟩
      · simp [hqf, hp] at hr
      · obtain ⟨k, th, hk, htid, hcov⟩ := a5 id t hold hr
        refine ⟨k, th, ?_, htid, hcov⟩
        show (st.threads ++ [Thread.mk c .blocked 0]).get? k = some th
        rw [List.get?_append (get?_some_lt hk)]
        exact hk
    · show (List.map Thread.tid
        (st.threads ++ [Thread.mk c .blocked 0])).Nodup
      rw [List.map_append]
      rw [List.nodup_append]
      refine ⟨a6, List.nodup_singleton c, ?_⟩
      intro x hx hxc
      simp at hxc
      subst hxc
      exact hcnotin hx
    · intro k th hk t hl
      have hk' : (st.threads ++ [Thread.mk c .blocked 0]).get? k =
        some th := hk
      have hl' : List.lookup th.tid (amod st.g.tasks c qf) = some t := hl
      rcases get?_snoc_cases hk' with hold | ⟨_, rfl⟩
      · rw [lookup_amod_ne _ _ _ _ (hnotid k th hold)] at hl'
        exact a7 k th hold t hl'
      · rcases hcases _ t hl' with ⟨_, rfl⟩ | ⟨hne, _⟩
        · simp [hqf]
        · exact absurd rfl hne
    · intro k th hk
      have hk' : (st.threads ++ [Thread.mk c .blocked 0]).get? k =
        some th := hk
      rcases get?_snoc_cases hk' with hold | ⟨_, rfl⟩
      · unfold phaseAttOK
        intro t hl
        have hl' : List.lookup th.tid (amod st.g.tasks c qf) = some t := hl
        rw [lookup_amod_ne _ _ _ _ (hnotid k th hold)] at hl'
        exact a9 k th hold t hl'
      · unfold phaseAttOK
        intro t hl
        have hl' : List.lookup c (amod st.g.tasks c qf) = some t := hl
        rw [hlc] at hl'
        cases Option.some.inj hl'
        show (qf tc).attempts < max 1 (qf tc).maxAttempts
        have h2 : 1 ≤ max 1 (qf tc).maxAttempts := le_max_left _ _
        have h1 : (qf tc).attempts = 0 := hattc
        omega
    · intro j hj
      have hj' : j ∈ st.waiting ++ [st.threads.length] := hj
      rcases List.mem_append.mp hj' with hjw | hjn
      · obtain ⟨th, hg, hb⟩ := a12 j hjw
        refine ⟨th, ?_, hb⟩
        show (st.threads ++ [Thread.mk c .blocked 0]).get? j = some th
        rw [List.get?_append (get?_some_lt hg)]
        exact hg
      · simp at hjn
        subst hjn
        refine ⟨Thread.mk c .blocked 0, ?_, rfl⟩
        show (st.threads ++ [Thread.mk c .blocked 0]).get?
          st.threads.length = some (Thread.mk c .blocked 0)
        exact List.get?_concat_length _ _
    · show (st.waiting ++ [st.threads.length]).Nodup
      rw [List.nodup_append]
      refine ⟨a13, List.nodup_singleton _, ?_⟩
      intro j hjw hjn
      simp at hjn
      subst hjn
      obtain ⟨th, hg, _⟩ := a12 _ hjw
      exact absurd (get?_some_lt hg) (lt_irrefl _)

/-- A whole batch of fresh PENDING tasks scheduled in sequence. -/
theorem inv_spawnFold {cap : Nat} (l : List String) :
    ∀ st : LState, Inv cap st → l.Nodup →
      (∀ c ∈ l, ∃ t, List.lookup c st.g.tasks = some t ∧
        t.status = .pending) →
      Inv cap (l.foldl spawnTask st) := by
  induction l with
  | nil => intro st h _ _; simpa using h
  | cons c t ih =>
      intro st h hnd hp
      obtain ⟨tc, hc, hpc⟩ := hp c (List.mem_cons_self _ _)
      have hnd' := List.nodup_cons.mp hnd
      refine ih _ (inv_spawn h hc hpc) hnd'.2 ?_
      intro d hd
      obtain ⟨td, hld, hpd⟩ := hp d (List.mem_cons_of_mem _ hd)
      have hdc : d ≠ c := fun e => hnd'.1 (e ▸ hd)
      exact ⟨td, by rw [spawnTask_lookup_ne st c d hdc]; exact hld, hpd⟩

theorem lookup_aset_ne {α : Type} (l : List (String × α)) (k k' : String)
    (v : α) (h : k' ≠ k) :
    List.lookup k' (aset l k v) = List.lookup k' l := by
  induction l with
  | nil =>
      have hb : (k' == k) = false := by simp [beq_iff_eq]; exact h
      simp [aset, List.lookup, hb]
  | cons p t ih =>
      obtain ⟨k₁, v₁⟩ := p
      by_cases hk : k₁ = k
      · subst hk
        have hb : (k' == k₁) = false := by simp [beq_iff_eq]; exact h
        simp [aset, List.lookup, hb]
      · by_cases hk' : k' = k₁
        · subst hk'
          simp [aset, if_neg hk, List.lookup]
        · have hb : (k' == k₁) = false := by simp [beq_iff_eq]; exact hk'
          simp [aset, if_neg hk, List.lookup, hb, ih]

theorem nodup_map_tid_get?_ne {l : List Thread} {i j : Nat}
    {a b : Thread} (hnd : (l.map Thread.tid).Nodup)
    (hi : l.get? i = some a) (hj : l.get? j = some b) (hij : i ≠ j) :
    a.tid ≠ b.tid := by
  intro e
  have hmi : (l.map Thread.tid).get? i = some a.tid := by
    rw [List.get?_map, hi]
    rfl
  have hmj : (l.map Thread.tid).get? j = some b.tid := by
    rw [List.get?_map, hj]
    rfl
  exact hij (List.get?_inj (get?_some_lt hmi) hnd (by rw [hmi, hmj, e]))

/-- A task-map update that leaves attempts and maxAttempts untouched and
never produces a PENDING or RUNNING status preserves the invariant (the
completed / failed / skipped / queued markers are all of this shape). -/
theorem inv_markTask {cap : Nat} {st : LState} {tid : String}
    {f : STask → STask}
    (hf_att : ∀ t, (f t).attempts = t.attempts)
    (hf_max : ∀ t, (f t).maxAttempts = t.maxAttempts)
    (hf_np : ∀ t, (f t).status ≠ .pending)
    (hf_nr : ∀ t, (f t).status ≠ .running)
    (h : Inv cap st) :
    Inv cap { st with g := { st.g with tasks := amod st.g.tasks tid f } } := by
  obtain ⟨a1, a2, a3, a4, a5, a6, a7, a8, a9, a10, a11, a12, a13⟩ := h
  have hcases : ∀ id t, List.lookup id (amod st.g.tasks tid f) = some t →
      (∃ t₀, List.lookup id st.g.tasks = some t₀ ∧ t = f t₀) ∨
      (id ≠ tid ∧ List.lookup id st.g.tasks = some t) := by
    intro id t hl
    by_cases hid : id = tid
    · rw [hid, lookup_amod_self] at hl
      cases ht₀ : List.lookup tid st.g.tasks with
      | none => rw [ht₀] at hl; simp at hl
      | some t₀ =>
          rw [ht₀] at hl
          left
          exact ⟨t₀, by rw [hid]; exact ht₀, (Option.some.inj hl).symm⟩
    · rw [lookup_amod_ne _ _ _ _ hid] at hl
      exact Or.inr ⟨hid, hl⟩
  refine ⟨?_, ?_, a3, a4, ?_, a6, ?_, ?_, ?_, ?_, ?_, a12, a13⟩
  · show (List.map Prod.fst (amod st.g.tasks tid f)).Nodup
    rw [keys_amod]
    exact a1
  · intro p cs hlp d hd
    show (List.lookup d (amod st.g.tasks tid f)).isSome = true
    rw [lookup_amod_isSome]
    exact a2 p cs hlp d hd
  · intro id t hl hr
    rcases hcases id t hl with ⟨t₀, _, rfl⟩ | ⟨_, hold⟩
    · exact absurd hr (hf_nr t₀)
    · obtain ⟨k, th, hk, htid, hcov⟩ := a5 id t hold hr
      exact ⟨k, th, hk, htid, hcov⟩
  · intro k th hk t hl
    rcases hcases th.tid t hl with ⟨t₀, _, rfl⟩ | ⟨_, hold⟩
    · exact hf_np t₀
    · exact a7 k th hk t hold
  · intro id t hl hpd
    rcases hcases id t hl with ⟨t₀, _, rfl⟩ | ⟨_, hold⟩
    · exact absurd hpd (hf_np t₀)
    · exact a8 id t hold hpd
  · intro k th hk
    have h9 := a9 k th hk
    unfold phaseAttOK at h9 ⊢
    intro t hl
    rcases hcases th.tid t hl with ⟨t₀, hold, rfl⟩ | ⟨_, hold⟩
    · have h0 := h9 t₀ hold
      rcases th with ⟨tv, ph, hd⟩
      cases ph <;> simp only [hf_att, hf_max] <;> exact h0
    · exact h9 t hold
  · intro id t hl
    rcases hcases id t hl with ⟨t₀, hold, rfl⟩ | ⟨_, hold⟩
    · rw [hf_att, hf_max]
      exact a10 id t₀ hold
    · exact a10 id t hold
  · intro id t hl
    rcases hcases id t hl with ⟨t₀, hold, rfl⟩ | ⟨_, hold⟩
    · rw [hf_att]
      exact a11 id t₀ hold
    · exact a11 id t hold

/-- `markSkipped` preserves the invariant. -/
theorem inv_markSkipped {cap : Nat} {st : LState} (fid tid : String)
    (h : Inv cap st) : Inv cap (markSkipped fid st tid) := by
  have h1 := @inv_markTask cap st tid
    (fun t =>
      { t with
        status := .skipped,
        error := some ("Skipped due to failed dependency: " ++ fid) })
    (fun t => rfl) (fun t => rfl) (fun t => by simp) (fun t => by simp) h
  exact invD_congr h1 rfl rfl rfl rfl rfl rfl

theorem inv_skipFold {cap : Nat} (fid : String) (l : List String) :
    ∀ st : LState, Inv cap st →
      Inv cap (l.foldl (markSkipped fid) st) := by
  induction l with
  | nil => intro st h; simpa using h
  | cons a t ih => intro st h; exact ih _ (inv_markSkipped fid a h)

theorem inv_skipDependentTasks {cap : Nat} {st : LState} (fid : String)
    (h : Inv cap st) : Inv cap (skipDependentTasks st fid) :=
  inv_skipFold fid _ st h

/-- Fields other than the task map and failed set are untouched by the
whole skip fold. -/
theorem skipFold_fields (fid : String) (l : List String) :
    ∀ st : LState,
      (l.foldl (markSkipped fid) st).g.dependents = st.g.dependents ∧
      (l.foldl (markSkipped fid) st).available = st.available ∧
      (l.foldl (markSkipped fid) st).waiting = st.waiting ∧
      (l.foldl (markSkipped fid) st).threads = st.threads ∧
      (l.foldl (markSkipped fid) st).log = st.log := by
  induction l with
  | nil => intro st; exact ⟨rfl, rfl, rfl, rfl, rfl⟩
  | cons a t ih =>
      intro st
      exact ih (markSkipped fid st a)

/-- Task lookup after the whole skip fold: either unchanged or the
skip marker applied. -/
theorem skipFold_lookup_or (fid : String) (l : List String) :
    ∀ (st : LState) (d : String),
      List.lookup d (l.foldl (markSkipped fid) st).g.tasks =
        List.lookup d st.g.tasks ∨
      List.lookup d (l.foldl (markSkipped fid) st).g.tasks =
        (List.lookup d st.g.tasks).map fun t =>
          { t with
            status := .skipped,
            error := some ("Skipped due to failed dependency: " ++ fid) } := by
  induction l with
  | nil => intro st d; exact Or.inl rfl
  | cons a t ih =>
      intro st d
      rw [List.foldl_cons]
      have hstep : List.lookup d (markSkipped fid st a).g.tasks =
          List.lookup d st.g.tasks ∨
          List.lookup d (markSkipped fid st a).g.tasks =
          (List.lookup d st.g.tasks).map fun t =>
            { t with
              status := .skipped,
              error := some ("Skipped due to failed dependency: " ++ fid) } := by
        by_cases hd : d = a
        · right
          show List.lookup d (amod st.g.tasks a _) = _
          rw [hd, lookup_amod_self]
        · left
          show List.lookup d (amod st.g.tasks a _) = _
          rw [lookup_amod_ne _ _ _ _ hd]
      rcases ih (markSkipped fid st a) d with h1 | h1 <;>
        rcases hstep with h2 | h2
      · exact Or.inl (h1.trans h2)
      · exact Or.inr (h1.trans h2)
      · exact Or.inr (by rw [h1, h2])
      · refine Or.inr ?_
        rw [h1, h2]
        cases List.lookup d st.g.tasks <;> rfl

/-- Facts about `onTaskCompleted`'s child loop: only the indegree map
changes, and the newly-ready list stays duplicate-free and contains only
PENDING tasks. -/
theorem completeChildrenGo_facts (base : LState) :
    ∀ (cs : List String) (st : LState) (ready : List String),
      st.g.tasks = base.g.tasks →
      st.g.dependents = base.g.dependents →
      st.available = base.available →
      st.waiting = base.waiting →
      st.threads = base.threads →
      st.log = base.log →
      ready.Nodup →
      (∀ c ∈ ready, ∃ t, List.lookup c base.g.tasks = some t ∧
        t.status = .pending) →
      (∀ c ∈ ready, ((List.lookup c st.g.indegree).getD 0) ≤ 0) →
      (completeChildrenGo st ready cs).1.g.tasks = base.g.tasks ∧
      (completeChildrenGo st ready cs).1.g.dependents = base.g.dependents ∧
      (completeChildrenGo st ready cs).1.available = base.available ∧
      (completeChildrenGo st ready cs).1.waiting = base.waiting ∧
      (completeChildrenGo st ready cs).1.threads = base.threads ∧
      (completeChildrenGo st ready cs).1.log = base.log ∧
      (completeChildrenGo st ready cs).2.Nodup ∧
      (∀ c ∈ (completeChildrenGo st ready cs).2,
        ∃ t, List.lookup c base.g.tasks = some t ∧
          t.status = .pending) := by
  intro cs
  induction cs with
  | nil =>
      intro st ready h1 h2 h3 h4 h5 h6 h7 h8 _
      exact ⟨h1, h2, h3, h4, h5, h6, h7, h8⟩
  | cons c cs ih =>
      intro st ready h1 h2 h3 h4 h5 h6 h7 h8 h9
      set ind : Int := ((List.lookup c st.g.indegree).getD 0) - 1 with hind
      set st' : LState :=
        { st with g := { st.g with
            indegree := aset st.g.indegree c ind } } with hst'
      have he : completeChildrenGo st ready (c :: cs) =
          if ind = 0 then
            (match List.lookup c st'.g.tasks with
             | some t =>
                 if t.status = TStatus.pending then
                   completeChildrenGo st' (ready ++ [c]) cs
                 else completeChildrenGo st' ready cs
             | none => completeChildrenGo st' ready cs)
          else completeChildrenGo st' ready cs := rfl
      rw [he]
      have h1' : st'.g.tasks = base.g.tasks := h1
      have h2' : st'.g.dependents = base.g.dependents := h2
      have h3' : st'.available = base.available := h3
      have h4' : st'.waiting = base.waiting := h4
      have h5' : st'.threads = base.threads := h5
      have h6' : st'.log = base.log := h6
      have hbound' : ∀ d ∈ ready,
          ((List.lookup d st'.g.indegree).getD 0) ≤ 0 := by
        intro d hd
        show ((List.lookup d (aset st.g.indegree c ind)).getD 0) ≤ 0
        by_cases hdc : d = c
        · rw [hdc, lookup_aset_self]
          have h0 := h9 d hd
          rw [hdc] at h0
          simp only [Option.getD_some]
          omega
        · rw [lookup_aset_ne _ _ _ _ hdc]
          exact h9 d hd
      by_cases hz : ind = 0
      · rw [if_pos hz]
        split
        next t hlk =>
            by_cases hpt : t.status = TStatus.pending
            · rw [if_pos hpt]
              have hcnot : c ∉ ready := by
                intro hcm
                have h0 := h9 c hcm
                omega
              refine ih st' (ready ++ [c]) h1' h2' h3' h4' h5' h6' ?_ ?_ ?_
              · rw [List.nodup_append]
                refine ⟨h7, List.nodup_singleton c, ?_⟩
                intro x hx hxc
                simp at hxc
                subst hxc
                exact hcnot hx
              · intro d hd
                rcases List.mem_append.mp hd with hdo | hdc
                · exact h8 d hdo
                · simp at hdc
                  subst hdc
                  refine ⟨t, ?_, hpt⟩
                  rw [← h1']
                  exact hlk
              · intro d hd
                rcases List.mem_append.mp hd with hdo | hdc
                · exact hbound' d hdo
                · simp at hdc
                  show ((List.lookup d (aset st.g.indegree c ind)).getD 0) ≤ 0
                  rw [hdc, lookup_aset_self]
                  simp only [Option.getD_some]
                  omega
            · rw [if_neg hpt]
              exact ih st' ready h1' h2' h3' h4' h5' h6' h7 h8 hbound'
        next hlk =>
            exact ih st' ready h1' h2' h3' h4' h5' h6' h7 h8 hbound'
      · rw [if_neg hz]
        exact ih st' ready h1' h2' h3' h4' h5' h6' h7 h8 hbound'

theorem completeChildren_facts (base : LState) (children : List String) :
    (completeChildren base children).1.g.tasks = base.g.tasks ∧
    (completeChildren base children).1.g.dependents = base.g.dependents ∧
    (completeChildren base children).1.available = base.available ∧
    (completeChildren base children).1.waiting = base.waiting ∧
    (completeChildren base children).1.threads = base.threads ∧
    (completeChildren base children).1.log = base.log ∧
    (completeChildren base children).2.Nodup ∧
    (∀ c ∈ (completeChildren base children).2,
      ∃ t, List.lookup c base.g.tasks = some t ∧
        t.status = .pending) :=
  completeChildrenGo_facts base children base [] rfl rfl rfl rfl rfl rfl
    List.nodup_nil (by intro c hc; simp at hc) (by intro c hc; simp at hc)


theorem spawnFold_get? (l : List String) :
    ∀ (st : LState) (k : Nat) (th : Thread),
      st.threads.get? k = some th →
      ((l.foldl spawnTask st).threads.get? k = some th) := by
  induction l with
  | nil => intro st k th h; exact h
  | cons c cs ih =>
      intro st k th h
      rw [List.foldl_cons]
      apply ih
      unfold spawnTask
      split
      · show (st.threads ++ [Thread.mk c .startExec 1]).get? k = some th
        rw [List.get?_append (get?_some_lt h)]
        exact h
      · show (st.threads ++ [Thread.mk c .blocked 0]).get? k = some th
        rw [List.get?_append (get?_some_lt h)]
        exact h

theorem spawnFold_lookup_ne (l : List String) :
    ∀ (st : LState) (d : String), (∀ c ∈ l, d ≠ c) →
      List.lookup d (l.foldl spawnTask st).g.tasks =
        List.lookup d st.g.tasks := by
  induction l with
  | nil => intro st d _; rfl
  | cons c cs ih =>
      intro st d hd
      rw [List.foldl_cons,
        ih _ d (fun c hc => hd c (List.mem_cons_of_mem _ hc)),
        spawnTask_lookup_ne st c d (hd c (List.mem_cons_self _ _))]

/-- `executeTask`'s synchronous head: RUNNING, `attempts++`, executor
invoked. -/
theorem inv_step_startExec {cap : Nat} (beh : Beh) {st : LState} {i : Nat}
    {th : Thread} (h : Inv cap st) (hth : st.threads.get? i = some th)
    (hph : th.phase = .startExec) : Inv cap (stepThread beh st i) := by
  obtain ⟨a1, a2, a3, a4, a5, a6, a7, a8, a9, a10, a11, a12, a13⟩ := h
  have hheld : 1 ≤ th.held := a4 i th hth (by rw [hph]; rfl)
  have hwaitne : ∀ j ∈ st.waiting, j ≠ i := by
    intro j hj e
    subst e
    obtain ⟨th', hg', hb'⟩ := a12 j hj
    rw [hth] at hg'
    cases Option.some.inj hg'
    rw [hph] at hb'
    cases hb'
  set fa : Thread → Thread := fun th => { th with phase := .awaitExec }
    with hfa
  have higet := get?_lmodify_of_get? fa hth
  have hsum := heldSum_lmodify st.threads i fa th hth
  cases hlk : List.lookup th.tid st.g.tasks with
  | none =>
      have he : stepThread beh st i =
          { st with threads := lmodify st.threads i fa } := by
        simp only [stepThread, hth, hph, hlk]
      rw [he]
      refine ⟨a1, a2, ?_, ?_, ?_, ?_, ?_, a8, ?_, a10, a11, ?_, a13⟩
      · show st.available + heldSum (lmodify st.threads i fa) + 0 = cap
        have hfh : (fa th).held = th.held := rfl
        omega
      · intro k th' hk _
        have hk' : (lmodify st.threads i fa).get? k = some th' := hk
        by_cases hki : k = i
        · subst hki
          rw [higet] at hk'
          cases Option.some.inj hk'
          exact hheld
        · rw [get?_lmodify_ne _ _ _ _ hki] at hk'
          exact a4 k th' hk' (by assumption)
      · intro id t hl hr
        obtain ⟨k, th', hk, htid, hcov⟩ := a5 id t hl hr
        have hki : k ≠ i := by
          intro e
          subst e
          rw [hth] at hk
          cases Option.some.inj hk
          rw [hph] at hcov
          cases hcov
        refine ⟨k, th', ?_, htid, hcov⟩
        show (lmodify st.threads i fa).get? k = some th'
        rw [get?_lmodify_ne _ _ _ _ hki]
        exact hk
      · show (List.map Thread.tid (lmodify st.threads i fa)).Nodup
        rw [map_lmodify st.threads i fa Thread.tid (fun a => rfl)]
        exact a6
      · intro k th' hk t hl
        have hk' : (lmodify st.threads i fa).get? k = some th' := hk
        have hl' : List.lookup th'.tid st.g.tasks = some t := hl
        by_cases hki : k = i
        · subst hki
          rw [higet] at hk'
          cases Option.some.inj hk'
          rw [show (fa th).tid = th.tid from rfl, hlk] at hl'
          cases hl'
        · rw [get?_lmodify_ne _ _ _ _ hki] at hk'
          exact a7 k th' hk' t hl'
      · intro k th' hk
        have hk' : (lmodify st.threads i fa).get? k = some th' := hk
        by_cases hki : k = i
        · subst hki
          rw [higet] at hk'
          cases Option.some.inj hk'
          unfold phaseAttOK
          intro t hl
          have hl' : List.lookup th.tid st.g.tasks = some t := hl
          rw [hlk] at hl'
          cases hl'
        · rw [get?_lmodify_ne _ _ _ _ hki] at hk'
          have h0 := a9 k th' hk'
          unfold phaseAttOK at h0 ⊢
          exact h0
      · intro j hj
        have hj' : j ∈ st.waiting := hj
        obtain ⟨th', hg', hb'⟩ := a12 j hj'
        refine ⟨th', ?_, hb'⟩
        show (lmodify st.threads i fa).get? j = some th'
        rw [get?_lmodify_ne _ _ _ _ (hwaitne j hj')]
        exact hg'
  | some t =>
      have hattlt : t.attempts < max 1 t.maxAttempts := by
        have h0 := a9 i th hth t hlk
        rw [hph] at h0
        exact h0
      set fi : STask → STask :=
        fun t => { t with status := .running, attempts := t.attempts + 1 }
        with hfi
      have he : stepThread beh st i = { st with
          g := { st.g with tasks := amod st.g.tasks th.tid fi },
          log := st.log ++ [(th.tid, t.attempts + 1)],
          threads := lmodify st.threads i fa } := by
        simp only [stepThread, hth, hph, hlk]
      rw [he]
      have hlc : List.lookup th.tid (amod st.g.tasks th.tid fi) =
          some (fi t) := by
        rw [lookup_amod_self, hlk]
        rfl
      have hcases : ∀ id t', List.lookup id (amod st.g.tasks th.tid fi) =
          some t' →
          (id = th.tid ∧ t' = fi t) ∨
          (id ≠ th.tid ∧ List.lookup id st.g.tasks = some t') := by
        intro id t' hl
        by_cases hid : id = th.tid
        · rw [hid, hlc] at hl
          exact Or.inl ⟨hid, (Option.some.inj hl).symm⟩
        · rw [lookup_amod_ne _ _ _ _ hid] at hl
          exact Or.inr ⟨hid, hl⟩
      refine ⟨?_, ?_, ?_, ?_, ?_, ?_, ?_, ?_, ?_, ?_, ?_, ?_, a13⟩
      · show (List.map Prod.fst (amod st.g.tasks th.tid fi)).Nodup
        rw [keys_amod]
        exact a1
      · intro p cs hlp d hd
        show (List.lookup d (amod st.g.tasks th.tid fi)).isSome = true
        rw [lookup_amod_isSome]
        exact a2 p cs hlp d hd
      · show st.available + heldSum (lmodify st.threads i fa) + 0 = cap
        have hfh : (fa th).held = th.held := rfl
        omega
      · intro k th' hk _
        have hk' : (lmodify st.threads i fa).get? k = some th' := hk
        by_cases hki : k = i
        · subst hki
          rw [higet] at hk'
          cases Option.some.inj hk'
          exact hheld
        · rw [get?_lmodify_ne _ _ _ _ hki] at hk'
          exact a4 k th' hk' (by assumption)
      · intro id t' hl hr
        rcases hcases id t' hl with ⟨hid, rfl⟩ | ⟨hid, hold⟩
        · refine ⟨i, fa th, higet, ?_, rfl⟩
          show th.tid = id
          rw [hid]
        · obtain ⟨k, th', hk, htid, hcov⟩ := a5 id t' hold hr
          have hki : k ≠ i := by
            intro e
            subst e
            rw [hth] at hk
            cases Option.some.inj hk
            rw [hph] at hcov
            cases hcov
          refine ⟨k, th', ?_, htid, hcov⟩
          show (lmodify st.threads i fa).get? k = some th'
          rw [get?_lmodify_ne _ _ _ _ hki]
          exact hk
      · show (List.map Thread.tid (lmodify st.threads i fa)).Nodup
        rw [map_lmodify st.threads i fa Thread.tid (fun a => rfl)]
        exact a6
      · intro k th' hk t' hl
        have hk' : (lmodify st.threads i fa).get? k = some th' := hk
        by_cases hki : k = i
        · subst hki
          rw [higet] at hk'
          cases Option.some.inj hk'
          have hl' : List.lookup th.tid (amod st.g.tasks th.tid fi) =
            some t' := hl
          rw [hlc] at hl'
          cases Option.some.inj hl'
          intro hcon
          cases hcon
        · rw [get?_lmodify_ne _ _ _ _ hki] at hk'
          have hne : th'.tid ≠ th.tid :=
            nodup_map_tid_get?_ne a6 hk' hth hki
          have hl' : List.lookup th'.tid (amod st.g.tasks th.tid fi) =
            some t' := hl
          rw [lookup_amod_ne _ _ _ _ hne] at hl'
          exact a7 k th' hk' t' hl'
      · intro id t' hl hpd
        rcases hcases id t' hl with ⟨_, rfl⟩ | ⟨_, hold⟩
        · cases hpd
        · exact a8 id t' hold hpd
      · intro k th' hk
        have hk' : (lmodify st.threads i fa).get? k = some th' := hk
        by_cases hki : k = i
        · subst hki
          rw [higet] at hk'
          cases Option.some.inj hk'
          unfold phaseAttOK
          intro t' hl
          have hl' : List.lookup th.tid (amod st.g.tasks th.tid fi) =
            some t' := hl
          rw [hlc] at hl'
          cases Option.some.inj hl'
          show 1 ≤ t.attempts + 1 ∧ t.attempts + 1 ≤ max 1 t.maxAttempts
          omega
        · rw [get?_lmodify_ne _ _ _ _ hki] at hk'
          have hne : th'.tid ≠ th.tid :=
            nodup_map_tid_get?_ne a6 hk' hth hki
          have h0 := a9 k th' hk'
          unfold phaseAttOK at h0 ⊢
          intro t' hl
          have hl' : List.lookup th'.tid (amod st.g.tasks th.tid fi) =
            some t' := hl
          rw [lookup_amod_ne _ _ _ _ hne] at hl'
          exact h0 t' hl'
      · intro id t' hl
        rcases hcases id t' hl with ⟨_, rfl⟩ | ⟨_, hold⟩
        · show t.attempts + 1 ≤ max 1 t.maxAttempts
          omega
        · exact a10 id t' hold
      · intro id t' hl
        show countLog (st.log ++ [(th.tid, t.attempts + 1)]) id = t'.attempts
        rw [countLog_append]
        rcases hcases id t' hl with ⟨hid, rfl⟩ | ⟨hid, hold⟩
        · rw [if_pos hid.symm]
          show countLog st.log id + 1 = t.attempts + 1
          rw [hid, a11 th.tid t hlk]
        · rw [if_neg (fun e => hid e.symm)]
          show countLog st.log id + 0 = t'.attempts
          rw [Nat.add_zero, a11 id t' hold]
      · intro j hj
        have hj' : j ∈ st.waiting := hj
        obtain ⟨th', hg', hb'⟩ := a12 j hj'
        refine ⟨th', ?_, hb'⟩
        show (lmodify st.threads i fa).get? j = some th'
        rw [get?_lmodify_ne _ _ _ _ (hwaitne j hj')]
        exact hg'

/-- The body of `executeTask` after the executor settles: success marks
COMPLETED and wakes newly-ready children, a retriable failure re-enters
`scheduleTask`, a final failure marks FAILED and cascades the skip; the
`finally` chain releases every held permit. -/
theorem inv_step_awaitExec {cap : Nat} (beh : Beh) {st : LState} {i : Nat}
    {th : Thread} (h : Inv cap st) (hth : st.threads.get? i = some th)
    (hph : th.phase = .awaitExec) : Inv cap (stepThread beh st i) := by
  cases hlk : List.lookup th.tid st.g.tasks with
  | none =>
      have he : stepThread beh st i = finishThread st i th.held := by
        simp only [stepThread, hth, hph, hlk]
      rw [he]
      refine inv_finishThread h hth ?_ ?_
      · rw [hph]
        intro hc
        cases hc
      · intro t hl
        rw [hlk] at hl
        cases hl
  | some t =>
      cases hbeh : beh th.tid t.attempts with
      | ok r =>
          set fc : STask → STask :=
            fun t => { t with status := .completed, result := some r }
            with hfcEq
          set st₁ : LState := { st with g := { st.g with
              tasks := amod st.g.tasks th.tid fc,
              completedT := sadd st.g.completedT th.tid } } with hst₁
          have h1 : Inv cap st₁ := by
            have h0 := @inv_markTask cap st th.tid fc
              (fun t => by rw [hfcEq]) (fun t => by rw [hfcEq])
              (fun t => by simp [hfcEq]) (fun t => by simp [hfcEq]) h
            exact invD_congr h0 rfl rfl rfl rfl rfl rfl
          obtain ⟨hf1, hf2, hf3, hf4, hf5, hf6, hf7, hf8⟩ :=
            completeChildren_facts st₁ (depsOf st₁.g th.tid)
          set res := completeChildren st₁ (depsOf st₁.g th.tid) with hres
          have he : stepThread beh st i =
              finishThread (res.2.foldl spawnTask res.1) i th.held := by
            simp only [stepThread, hth, hph, hlk, hbeh]
          rw [he]
          have h2 : Inv cap res.1 := invD_congr h1 hf1 hf2 hf3 hf5 hf4 hf6
          have h3 : Inv cap (res.2.foldl spawnTask res.1) := by
            refine inv_spawnFold res.2 res.1 h2 hf7 ?_
            intro c hc
            obtain ⟨tc, hlc, hpc⟩ := hf8 c hc
            exact ⟨tc, by rw [hf1]; exact hlc, hpc⟩
          have hlc₁ : List.lookup th.tid st₁.g.tasks = some (fc t) := by
            show List.lookup th.tid (amod st.g.tasks th.tid fc) = some (fc t)
            rw [lookup_amod_self, hlk]
            rfl
          have hthx : (res.2.foldl spawnTask res.1).threads.get? i =
              some th := by
            refine spawnFold_get? res.2 res.1 i th ?_
            rw [hf5]
            exact hth
          refine inv_finishThread h3 hthx ?_ ?_
          · rw [hph]
            intro hc
            cases hc
          · have hnotin : ∀ c ∈ res.2, th.tid ≠ c := by
              intro c hc e
              obtain ⟨tc, hlc, hpc⟩ := hf8 c hc
              rw [← e, hlc₁] at hlc
              cases Option.some.inj hlc
              simp [hfcEq] at hpc
            intro t' hl'
            rw [spawnFold_lookup_ne res.2 res.1 th.tid hnotin, hf1,
              hlc₁] at hl'
            cases Option.some.inj hl'
            simp [hfcEq]
      | error m =>
          by_cases hret : t.attempts < t.maxAttempts
          · -- task:retry: the attempt cap was not reached, so
            -- `scheduleTask` is re-entered after the delay
            obtain ⟨a1, a2, a3, a4, a5, a6, a7, a8, a9, a10, a11, a12,
              a13⟩ := h
            have hheld : 1 ≤ th.held := a4 i th hth (by rw [hph]; rfl)
            have hwaitne : ∀ j ∈ st.waiting, j ≠ i := by
              intro j hj e
              subst e
              obtain ⟨th', hg', hb'⟩ := a12 j hj
              rw [hth] at hg'
              cases Option.some.inj hg'
              rw [hph] at hb'
              cases hb'
            set fa : Thread → Thread := fun th => { th with phase := .retrying }
              with hfa
            have higet := get?_lmodify_of_get? fa hth
            have hsum := heldSum_lmodify st.threads i fa th hth
            have he : stepThread beh st i =
                { st with threads := lmodify st.threads i fa } := by
              simp only [stepThread, hth, hph, hlk, hbeh]
              rw [if_pos hret]
            rw [he]
            refine ⟨a1, a2, ?_, ?_, ?_, ?_, ?_, a8, ?_, a10, a11, ?_, a13⟩
            · show st.available + heldSum (lmodify st.threads i fa) + 0 = cap
              have hfh : (fa th).held = th.held := rfl
              omega
            · intro k th' hk _
              have hk' : (lmodify st.threads i fa).get? k = some th' := hk
              by_cases hki : k = i
              · subst hki
                rw [higet] at hk'
                cases Option.some.inj hk'
                exact hheld
              · rw [get?_lmodify_ne _ _ _ _ hki] at hk'
                exact a4 k th' hk' (by assumption)
            · intro id t' hl hr
              obtain ⟨k, th', hk, htid, hcov⟩ := a5 id t' hl hr
              by_cases hki : k = i
              · subst hki
                rw [hth] at hk
                cases Option.some.inj hk
                exact ⟨k, fa th, higet, htid, rfl⟩
              · refine ⟨k, th', ?_, htid, hcov⟩
                show (lmodify st.threads i fa).get? k = some th'
                rw [get?_lmodify_ne _ _ _ _ hki]
                exact hk
            · show (List.map Thread.tid (lmodify st.threads i fa)).Nodup
              rw [map_lmodify st.threads i fa Thread.tid (fun a => rfl)]
              exact a6
            · intro k th' hk t' hl
              have hk' : (lmodify st.threads i fa).get? k = some th' := hk
              by_cases hki : k = i
              · subst hki
                rw [higet] at hk'
                cases Option.some.inj hk'
                have hl' : List.lookup th.tid st.g.tasks = some t' := hl
                exact a7 k th hth t' hl'
              · rw [get?_lmodify_ne _ _ _ _ hki] at hk'
                exact a7 k th' hk' t' hl
            · intro k th' hk
              have hk' : (lmodify st.threads i fa).get? k = some th' := hk
              by_cases hki : k = i
              · subst hki
                rw [higet] at hk'
                cases Option.some.inj hk'
                unfold phaseAttOK
                intro t' hl
                have hl' : List.lookup th.tid st.g.tasks = some t' := hl
                rw [hlk] at hl'
                cases Option.some.inj hl'
                show t.attempts < t.maxAttempts
                exact hret
              · rw [get?_lmodify_ne _ _ _ _ hki] at hk'
                have h0 := a9 k th' hk'
                unfold phaseAttOK at h0 ⊢
                exact h0
            · intro j hj
              have hj' : j ∈ st.waiting := hj
              obtain ⟨th', hg', hb'⟩ := a12 j hj'
              refine ⟨th', ?_, hb'⟩
              show (lmodify st.threads i fa).get? j = some th'
              rw [get?_lmodify_ne _ _ _ _ (hwaitne j hj')]
              exact hg'
          · -- final failure: FAILED, cascade skip, release
            set ff : STask → STask :=
              fun t => { t with status := .failed, error := some m }
              with hffEq
            set st₁ : LState := { st with g := { st.g with
                tasks := amod st.g.tasks th.tid ff,
                failedT := sadd st.g.failedT th.tid } } with hst₁
            have h1 : Inv cap st₁ := by
              have h0 := @inv_markTask cap st th.tid ff
                (fun t => by rw [hffEq]) (fun t => by rw [hffEq])
                (fun t => by simp [hffEq]) (fun t => by simp [hffEq]) h
              exact invD_congr h0 rfl rfl rfl rfl rfl rfl
            have h2 : Inv cap (skipDependentTasks st₁ th.tid) :=
              inv_skipDependentTasks th.tid h1
            have he : stepThread beh st i =
                finishThread (skipDependentTasks st₁ th.tid) i th.held := by
              simp only [stepThread, hth, hph, hlk, hbeh]
              rw [if_neg hret]
            rw [he]
            have hlt₁ : List.lookup th.tid st₁.g.tasks = some (ff t) := by
              show List.lookup th.tid (amod st.g.tasks th.tid ff) =
                some (ff t)
              rw [lookup_amod_self, hlk]
              rfl
            have hthx : (skipDependentTasks st₁ th.tid).threads.get? i =
                some th := by
              show ((skipBfs st₁.g (traverseFuel st₁.g)
                (depsOf st₁.g th.tid) []).foldl (markSkipped th.tid)
                st₁).threads.get? i = some th
              rw [(skipFold_fields th.tid _ st₁).2.2.2.1]
              exact hth
            refine inv_finishThread h2 hthx ?_ ?_
            · rw [hph]
              intro hc
              cases hc
            · intro t' hl'
              have hl₂ : List.lookup th.tid
                  ((skipBfs st₁.g (traverseFuel st₁.g)
                    (depsOf st₁.g th.tid) []).foldl (markSkipped th.tid)
                    st₁).g.tasks = some t' := hl'
              rcases skipFold_lookup_or th.tid _ st₁ th.tid with hor | hor
              · rw [hor, hlt₁] at hl₂
                cases Option.some.inj hl₂
                simp [hffEq]
              · rw [hor, hlt₁] at hl₂
                rw [Option.map_some'] at hl₂
                cases Option.some.inj hl₂
                simp

/-- The re-entered `scheduleTask` of a retry: QUEUED then
`semaphore.acquire()`, which either takes a free permit into
`executeTask` or joins the FIFO. -/
theorem inv_step_retrying {cap : Nat} (beh : Beh) {st : LState} {i : Nat}
    {th : Thread} (h : Inv cap st) (hth : st.threads.get? i = some th)
    (hph : th.phase = .retrying) : Inv cap (stepThread beh st i) := by
  set fq : STask → STask := fun t => { t with status := .queued } with hfq
  have h1 : Inv cap { st with g := { st.g with
      tasks := amod st.g.tasks th.tid fq } } :=
    @inv_markTask cap st th.tid fq
      (fun t => by rw [hfq]) (fun t => by rw [hfq])
      (fun t => by simp [hfq]) (fun t => by simp [hfq]) h
  have hheld : 1 ≤ th.held := h.heldPos i th hth (by rw [hph]; rfl)
  have hwaitne : ∀ j ∈ st.waiting, j ≠ i := by
    intro j hj e
    subst e
    obtain ⟨th', hg', hb'⟩ := h.waitBlocked j hj
    rw [hth] at hg'
    cases Option.some.inj hg'
    rw [hph] at hb'
    cases hb'
  have hruncon : ∀ t', List.lookup th.tid
      (amod st.g.tasks th.tid fq) = some t' →
      t'.status ≠ .running := by
    intro t' hl2
    rw [lookup_amod_self] at hl2
    cases hlk0 : List.lookup th.tid st.g.tasks with
    | none =>
        rw [hlk0, Option.map_none'] at hl2
        cases hl2
    | some t₀ =>
        rw [hlk0, Option.map_some'] at hl2
        cases Option.some.inj hl2
        simp [hfq]
  have hattlt : ∀ t', List.lookup th.tid
      (amod st.g.tasks th.tid fq) = some t' →
      t'.attempts < max 1 t'.maxAttempts := by
    intro t' hl2
    rw [lookup_amod_self] at hl2
    cases hlk0 : List.lookup th.tid st.g.tasks with
    | none =>
        rw [hlk0, Option.map_none'] at hl2
        cases hl2
    | some t₀ =>
        rw [hlk0, Option.map_some'] at hl2
        cases Option.some.inj hl2
        have h0 := h.phaseAtt i th hth t₀ hlk0
        rw [hph] at h0
        have h0' : t₀.attempts < t₀.maxAttempts := h0
        have hm : t₀.maxAttempts ≤ max 1 t₀.maxAttempts := le_max_right _ _
        show t₀.attempts < max 1 t₀.maxAttempts
        omega
  obtain ⟨b1, b2, b3, b4, b5, b6, b7, b8, b9, b10, b11, b12, b13⟩ := h1
  by_cases hav : 0 < st.available
  · -- a permit is free: straight into executeTask with one more permit
    set fb : Thread → Thread :=
      fun th => { th with phase := .startExec, held := th.held + 1 }
      with hfb
    have higet := get?_lmodify_of_get? fb hth
    have hsum := heldSum_lmodify st.threads i fb th hth
    have he : stepThread beh st i = { st with
        g := { st.g with tasks := amod st.g.tasks th.tid fq },
        available := st.available - 1,
        threads := lmodify st.threads i fb } := by
      simp only [stepThread, hth, hph]
      rw [if_pos hav]
    rw [he]
    refine ⟨b1, b2, ?_, ?_, ?_, ?_, ?_, b8, ?_, b10, b11, ?_, b13⟩
    · show st.available - 1 + heldSum (lmodify st.threads i fb) + 0 = cap
      have hp := h.permits
      have hfh : (fb th).held = th.held + 1 := rfl
      omega
    · intro k th' hk _
      have hk' : (lmodify st.threads i fb).get? k = some th' := hk
      by_cases hki : k = i
      · subst hki
        rw [higet] at hk'
        cases Option.some.inj hk'
        show 1 ≤ th.held + 1
        omega
      · rw [get?_lmodify_ne _ _ _ _ hki] at hk'
        exact b4 k th' hk' (by assumption)
    · intro id t' hl hr
      obtain ⟨k, th', hk, htid, hcov⟩ := b5 id t' hl hr
      by_cases hki : k = i
      · subst hki
        have hk2 : st.threads.get? k = some th' := hk
        rw [hth] at hk2
        cases Option.some.inj hk2
        rw [← htid] at hl
        exact absurd hr (hruncon t' hl)
      · refine ⟨k, th', ?_, htid, hcov⟩
        show (lmodify st.threads i fb).get? k = some th'
        rw [get?_lmodify_ne _ _ _ _ hki]
        exact hk
    · show (List.map Thread.tid (lmodify st.threads i fb)).Nodup
      rw [map_lmodify st.threads i fb Thread.tid (fun a => rfl)]
      exact b6
    · intro k th' hk t' hl
      have hk' : (lmodify st.threads i fb).get? k = some th' := hk
      by_cases hki : k = i
      · subst hki
        rw [higet] at hk'
        cases Option.some.inj hk'
        exact b7 k th hth t' hl
      · rw [get?_lmodify_ne _ _ _ _ hki] at hk'
        exact b7 k th' hk' t' hl
    · intro k th' hk
      have hk' : (lmodify st.threads i fb).get? k = some th' := hk
      by_cases hki : k = i
      · subst hki
        rw [higet] at hk'
        cases Option.some.inj hk'
        unfold phaseAttOK
        intro t' hl
        have hl' : List.lookup th.tid (amod st.g.tasks th.tid fq) =
          some t' := hl
        exact hattlt t' hl'
      · rw [get?_lmodify_ne _ _ _ _ hki] at hk'
        have h0 := b9 k th' hk'
        unfold phaseAttOK at h0 ⊢
        exact h0
    · intro j hj
      have hj' : j ∈ st.waiting := hj
      obtain ⟨th', hg', hb'⟩ := b12 j hj'
      refine ⟨th', ?_, hb'⟩
      show (lmodify st.threads i fb).get? j = some th'
      rw [get?_lmodify_ne _ _ _ _ (hwaitne j hj')]
      exact hg'
  · -- no permit: the resolver joins the semaphore FIFO
    set fb : Thread → Thread := fun th => { th with phase := .blocked }
      with hfb
    have higet := get?_lmodify_of_get? fb hth
    have hsum := heldSum_lmodify st.threads i fb th hth
    have he : stepThread beh st i = { st with
        g := { st.g with tasks := amod st.g.tasks th.tid fq },
        waiting := st.waiting ++ [i],
        threads := lmodify st.threads i fb } := by
      simp only [stepThread, hth, hph]
      rw [if_neg hav]
    rw [he]
    refine ⟨b1, b2, ?_, ?_, ?_, ?_, ?_, b8, ?_, b10, b11, ?_, ?_⟩
    · show st.available + heldSum (lmodify st.threads i fb) + 0 = cap
      have hp := h.permits
      have hfh : (fb th).held = th.held := rfl
      omega
    · intro k th' hk hr
      have hk' : (lmodify st.threads i fb).get? k = some th' := hk
      by_cases hki : k = i
      · subst hki
        rw [higet] at hk'
        cases Option.some.inj hk'
        simp [runnablePhase] at hr
      · rw [get?_lmodify_ne _ _ _ _ hki] at hk'
        exact b4 k th' hk' hr
    · intro id t' hl hr
      obtain ⟨k, th', hk, htid, hcov⟩ := b5 id t' hl hr
      by_cases hki : k = i
      · subst hki
        have hk2 : st.threads.get? k = some th' := hk
        rw [hth] at hk2
        cases Option.some.inj hk2
        rw [← htid] at hl
        exact absurd hr (hruncon t' hl)
      · refine ⟨k, th', ?_, htid, hcov⟩
        show (lmodify st.threads i fb).get? k = some th'
        rw [get?_lmodify_ne _ _ _ _ hki]
        exact hk
    · show (List.map Thread.tid (lmodify st.threads i fb)).Nodup
      rw [map_lmodify st.threads i fb Thread.tid (fun a => rfl)]
      exact b6
    · intro k th' hk t' hl
      have hk' : (lmodify st.threads i fb).get? k = some th' := hk
      by_cases hki : k = i
      · subst hki
        rw [higet] at hk'
        cases Option.some.inj hk'
        exact b7 k th hth t' hl
      · rw [get?_lmodify_ne _ _ _ _ hki] at hk'
        exact b7 k th' hk' t' hl
    · intro k th' hk
      have hk' : (lmodify st.threads i fb).get? k = some th' := hk
      by_cases hki : k = i
      · subst hki
        rw [higet] at hk'
        cases Option.some.inj hk'
        unfold phaseAttOK
        intro t' hl
        have hl' : List.lookup th.tid (amod st.g.tasks th.tid fq) =
          some t' := hl
        exact hattlt t' hl'
      · rw [get?_lmodify_ne _ _ _ _ hki] at hk'
        have h0 := b9 k th' hk'
        unfold phaseAttOK at h0 ⊢
        exact h0
    · intro j hj
      have hj' : j ∈ st.waiting ++ [i] := hj
      rcases List.mem_append.mp hj' with hj1 | hj2
      · obtain ⟨th', hg', hb'⟩ := b12 j hj1
        refine ⟨th', ?_, hb'⟩
        show (lmodify st.threads i fb).get? j = some th'
        rw [get?_lmodify_ne _ _ _ _ (hwaitne j hj1)]
        exact hg'
      · simp at hj2
        subst hj2
        exact ⟨fb th, higet, rfl⟩
    · show (st.waiting ++ [i]).Nodup
      rw [List.nodup_append]
      refine ⟨b13, List.nodup_singleton i, ?_⟩
      intro x hx hxi
      simp at hxi
      subst hxi
      exact hwaitne x hx rfl

/-- Every event-loop step preserves the run invariant. -/
theorem inv_stepThread {cap : Nat} (beh : Beh) {st : LState} (i : Nat)
    (h : Inv cap st) : Inv cap (stepThread beh st i) := by
  cases hth : st.threads.get? i with
  | none =>
      have he : stepThread beh st i = st := by
        simp only [stepThread, hth]
      rw [he]
      exact h
  | some th =>
      rcases hphe : th.phase with _ | _ | _ | _ | _
      · exact inv_step_startExec beh h hth hphe
      · exact inv_step_awaitExec beh h hth hphe
      · exact inv_step_retrying beh h hth hphe
      · have he : stepThread beh st i = st := by
          simp only [stepThread, hth, hphe]
        rw [he]
        exact h
      · have he : stepThread beh st i = st := by
          simp only [stepThread, hth, hphe]
        rw [he]
        exact h

theorem inv_stepOnce {cap : Nat} (beh : Beh) {a b : LState}
    (h : Inv cap a) (hs : stepOnce beh a = some b) : Inv cap b := by
  unfold stepOnce at hs
  by_cases hf : loopFinished a
  · rw [if_pos hf] at hs
    cases hs
  · rw [if_neg hf] at hs
    cases hr : findRunnable a.threads with
    | none =>
        rw [hr] at hs
        cases hs
    | some i =>
        rw [hr, Option.map_some'] at hs
        cases Option.some.inj hs
        exact inv_stepThread beh i h

/-- The run invariant holds in every state reachable from an invariant
state. -/
theorem inv_reach {cap : Nat} {beh : Beh} {s₀ s : LState}
    (h0 : Inv cap s₀) (hr : Reach beh s₀ s) : Inv cap s := by
  induction hr with
  | refl => exact h0
  | step _ hs ih => exact inv_stepOnce _ ih hs

/-! ### The invariant at the start state -/

theorem mem_keys_aset {α : Type} (k x : String) (v : α) :
    ∀ l : List (String × α),
      x ∈ (aset l k v).map Prod.fst → x ∈ l.map Prod.fst ∨ x = k := by
  intro l
  induction l with
  | nil =>
      intro h
      simp [aset] at h
      exact Or.inr h
  | cons p t ih =>
      obtain ⟨k₁, v₁⟩ := p
      intro h
      simp only [aset] at h
      by_cases hk : k₁ = k
      · rw [if_pos hk] at h
        rw [List.map_cons, List.mem_cons] at h
        rw [List.map_cons, List.mem_cons]
        rcases h with h | h
        · exact Or.inr h
        · exact Or.inl (Or.inr h)
      · rw [if_neg hk] at h
        rw [List.map_cons, List.mem_cons] at h
        rw [List.map_cons, List.mem_cons]
        rcases h with h | h
        · exact Or.inl (Or.inl h)
        · rcases ih h with h2 | h2
          · exact Or.inl (Or.inr h2)
          · exact Or.inr h2

theorem nodup_keys_aset {α : Type} (k : String) (v : α) :
    ∀ l : List (String × α), (l.map Prod.fst).Nodup →
      ((aset l k v).map Prod.fst).Nodup := by
  intro l
  induction l with
  | nil =>
      intro _
      simp [aset]
  | cons p t ih =>
      obtain ⟨k₁, v₁⟩ := p
      intro hnd
      rw [List.map_cons, List.nodup_cons] at hnd
      simp only [aset]
      by_cases hk : k₁ = k
      · rw [if_pos hk]
        rw [List.map_cons, List.nodup_cons]
        refine ⟨?_, hnd.2⟩
        rw [← hk]
        exact hnd.1
      · rw [if_neg hk]
        rw [List.map_cons, List.nodup_cons]
        refine ⟨?_, ih hnd.2⟩
        intro hmem
        rcases mem_keys_aset k k₁ v t hmem with h2 | h2
        · exact hnd.1 h2
        · exact hk h2

theorem lookup_aset_isSome_mono {α : Type} (l : List (String × α))
    (k x : String) (v : α) (h : (List.lookup x l).isSome = true) :
    (List.lookup x (aset l k v)).isSome = true := by
  by_cases hx : x = k
  · subst hx
    rw [lookup_aset_self]
    rfl
  · rw [lookup_aset_ne l k x v hx]
    exact h

/-- The body of `loadPlan`'s first loop (normalize and insert one task). -/
def initStep (opts : SOptions) (g : GState) (p : PTask) : GState :=
  { g with
    tasks := aset g.tasks p.id
      { filePath := p.filePath, description := p.description,
        dependencies := p.dependencies, priority := p.priority,
        status := .pending, result := p.result, error := none,
        attempts := 0,
        maxAttempts := p.maxAttempts.getD opts.defaultMaxAttempts },
    indegree := aset g.indegree p.id 0,
    dependents := aset g.dependents p.id [] }

theorem initGState_eq_foldl (opts : SOptions) (pl : List PTask) :
    initGState opts pl = pl.foldl (initStep opts)
      { tasks := [], dependents := [], indegree := [],
        completedT := [], failedT := [] } := rfl

/-- Facts established by the first `loadPlan` loop: duplicate-free task
keys, every task PENDING with zero attempts, presence of every plan id,
and every `dependents` entry empty. -/
theorem initFold_facts (opts : SOptions) :
    ∀ (pl : List PTask) (g : GState),
      (g.tasks.map Prod.fst).Nodup →
      (∀ id t, List.lookup id g.tasks = some t →
        t.status = .pending ∧ t.attempts = 0) →
      (∀ q cs, List.lookup q g.dependents = some cs → cs = []) →
      ((pl.foldl (initStep opts) g).tasks.map Prod.fst).Nodup ∧
      (∀ id t, List.lookup id (pl.foldl (initStep opts) g).tasks =
        some t → t.status = .pending ∧ t.attempts = 0) ∧
      (∀ x, (List.lookup x g.tasks).isSome = true →
        (List.lookup x (pl.foldl (initStep opts) g).tasks).isSome =
          true) ∧
      (∀ p ∈ pl, (List.lookup p.id
        (pl.foldl (initStep opts) g).tasks).isSome = true) ∧
      (∀ q cs, List.lookup q (pl.foldl (initStep opts) g).dependents =
        some cs → cs = []) := by
  intro pl
  induction pl with
  | nil =>
      intro g h1 h2 h3
      refine ⟨h1, h2, fun x hx => hx, ?_, h3⟩
      intro p hp
      cases hp
  | cons p ps ih =>
      intro g h1 h2 h3
      rw [List.foldl_cons]
      have h1' : ((initStep opts g p).tasks.map Prod.fst).Nodup :=
        nodup_keys_aset p.id _ g.tasks h1
      have h2' : ∀ id t, List.lookup id (initStep opts g p).tasks =
          some t → t.status = .pending ∧ t.attempts = 0 := by
        intro id t hl
        have hl' : List.lookup id (aset g.tasks p.id
            { filePath := p.filePath, description := p.description,
              dependencies := p.dependencies, priority := p.priority,
              status := .pending, result := p.result, error := none,
              attempts := 0,
              maxAttempts := p.maxAttempts.getD
                opts.defaultMaxAttempts }) = some t := hl
        by_cases hid : id = p.id
        · subst hid
          rw [lookup_aset_self] at hl'
          cases Option.some.inj hl'
          exact ⟨rfl, rfl⟩
        · rw [lookup_aset_ne _ _ _ _ hid] at hl'
          exact h2 id t hl'
      have h3' : ∀ q cs, List.lookup q (initStep opts g p).dependents =
          some cs → cs = [] := by
        intro q cs hq
        have hq' : List.lookup q (aset g.dependents p.id []) =
          some cs := hq
        by_cases hqp : q = p.id
        · subst hqp
          rw [lookup_aset_self] at hq'
          exact (Option.some.inj hq').symm
        · rw [lookup_aset_ne _ _ _ _ hqp] at hq'
          exact h3 q cs hq'
      obtain ⟨i1, i2, i3, i4, i5⟩ := ih (initStep opts g p) h1' h2' h3'
      refine ⟨i1, i2, ?_, ?_, i5⟩
      · intro x hx
        refine i3 x ?_
        exact lookup_aset_isSome_mono g.tasks p.id x _ hx
      · intro q hq
        rcases List.mem_cons.mp hq with rfl | hm
        · refine i3 q.id ?_
          show (List.lookup q.id (aset g.tasks q.id
            { filePath := q.filePath, description := q.description,
              dependencies := q.dependencies, priority := q.priority,
              status := .pending, result := q.result, error := none,
              attempts := 0,
              maxAttempts := q.maxAttempts.getD
                opts.defaultMaxAttempts })).isSome = true
          rw [lookup_aset_self]
          rfl
        · exact i4 q hm

/-- One dependency edge of `loadPlan`'s second loop: drop it when the
parent id is unknown, otherwise record parent→child and bump the
child's indegree. -/
def edgeInner (pid : String) (g : GState) (parentId : String) : GState :=
  if (List.lookup parentId g.tasks).isSome then
    { g with
      dependents := amod g.dependents parentId (fun cs => cs ++ [pid]),
      indegree := aset g.indegree pid
        (((List.lookup pid g.indegree).getD 0) + 1) }
  else g

theorem addEdges_eq_foldl (g : GState) (pl : List PTask) :
    addEdges g pl = pl.foldl
      (fun g p => p.dependencies.foldl (edgeInner p.id) g) g := rfl

/-- The inner dependency loop never touches the task map, and keeps
every recorded child id resolvable in the task map. -/
theorem edgeInner_facts (pid : String) :
    ∀ (deps : List String) (g : GState),
      (List.lookup pid g.tasks).isSome = true →
      (∀ q cs, List.lookup q g.dependents = some cs →
        ∀ c ∈ cs, (List.lookup c g.tasks).isSome = true) →
      (deps.foldl (edgeInner pid) g).tasks = g.tasks ∧
      (∀ q cs, List.lookup q (deps.foldl (edgeInner pid) g).dependents =
        some cs → ∀ c ∈ cs, (List.lookup c g.tasks).isSome = true) := by
  intro deps
  induction deps with
  | nil =>
      intro g _ hdep
      exact ⟨rfl, hdep⟩
  | cons d ds ih =>
      intro g hpid hdep
      rw [List.foldl_cons]
      by_cases hd : (List.lookup d g.tasks).isSome = true
      · have he : edgeInner pid g d = { g with
            dependents := amod g.dependents d (fun cs => cs ++ [pid]),
            indegree := aset g.indegree pid
              (((List.lookup pid g.indegree).getD 0) + 1) } := by
          unfold edgeInner
          rw [if_pos hd]
        rw [he]
        have hdep₂ : ∀ q cs, List.lookup q
            (amod g.dependents d (fun cs => cs ++ [pid])) = some cs →
            ∀ c ∈ cs, (List.lookup c g.tasks).isSome = true := by
          intro q cs hq c hc
          by_cases hqd : q = d
          · subst hqd
            rw [lookup_amod_self] at hq
            cases hcs : List.lookup q g.dependents with
            | none =>
                rw [hcs] at hq
                cases hq
            | some cs₀ =>
                rw [hcs, Option.map_some'] at hq
                cases Option.some.inj hq
                rcases List.mem_append.mp hc with hc1 | hc2
                · exact hdep q cs₀ hcs c hc1
                · simp at hc2
                  subst hc2
                  exact hpid
          · rw [lookup_amod_ne _ _ _ _ hqd] at hq
            exact hdep q cs hq c hc
        exact ih _ hpid hdep₂
      · have he : edgeInner pid g d = g := by
          unfold edgeInner
          rw [if_neg hd]
        rw [he]
        exact ih g hpid hdep

/-- `addEdges` never touches the task map and produces a `dependents`
map whose every child id resolves in the task map. -/
theorem addEdges_facts :
    ∀ (pl : List PTask) (g : GState),
      (∀ p ∈ pl, (List.lookup p.id g.tasks).isSome = true) →
      (∀ q cs, List.lookup q g.dependents = some cs →
        ∀ c ∈ cs, (List.lookup c g.tasks).isSome = true) →
      (addEdges g pl).tasks = g.tasks ∧
      (∀ q cs, List.lookup q (addEdges g pl).dependents = some cs →
        ∀ c ∈ cs, (List.lookup c g.tasks).isSome = true) := by
  intro pl
  induction pl with
  | nil =>
      intro g _ hdep
      exact ⟨rfl, hdep⟩
  | cons p ps ih =>
      intro g hpl hdep
      have hstep : addEdges g (p :: ps) =
          addEdges (p.dependencies.foldl (edgeInner p.id) g) ps := rfl
      rw [hstep]
      obtain ⟨ht₁, hd₁⟩ := edgeInner_facts p.id p.dependencies g
        (hpl p (List.mem_cons_self _ _)) hdep
      obtain ⟨ht₂, hd₂⟩ := ih (p.dependencies.foldl (edgeInner p.id) g)
        (by
          intro q hq
          rw [ht₁]
          exact hpl q (List.mem_cons_of_mem _ hq))
        (by
          intro q cs hq c hc
          rw [ht₁]
          exact hd₁ q cs hq c hc)
      refine ⟨?_, ?_⟩
      · rw [ht₂, ht₁]
      · intro q cs hq c hc
        rw [← ht₁]
        exact hd₂ q cs hq c hc

/-! ### The ready batch is a permutation of the PENDING indegree-0
tasks -/

theorem insertDesc_perm (x : String × STask) :
    ∀ l : List (String × STask), (insertDesc x l).Perm (x :: l) := by
  intro l
  induction l with
  | nil => exact List.Perm.refl _
  | cons y ys ih =>
      unfold insertDesc
      by_cases hp : prioOf y.2 ≤ prioOf x.2
      · rw [if_pos hp]
      · rw [if_neg hp]
        exact (ih.cons y).trans (List.Perm.swap x y ys)

theorem foldr_insertDesc_perm :
    ∀ l : List (String × STask), (l.foldr insertDesc []).Perm l := by
  intro l
  induction l with
  | nil => exact List.Perm.refl _
  | cons a t ih =>
      rw [List.foldr_cons]
      exact (insertDesc_perm a (t.foldr insertDesc [])).trans (ih.cons a)

theorem getReadyTasks_perm (g : GState) :
    (getReadyTasks g).Perm (g.tasks.filter fun p =>
      decide (p.2.status = TStatus.pending) &&
      decide (((List.lookup p.1 g.indegree).getD 0) = 0)) :=
  foldr_insertDesc_perm _

/-- The run invariant holds at the state in which `run()` enters its
polling loop, for every loaded plan. -/
theorem inv_start (opts : SOptions) (pl : List PTask) :
    Inv opts.maxConcurrency (startState opts (loadPlan opts pl)) := by
  obtain ⟨hnd, hvals, _, hmemP, hdep0⟩ :=
    initFold_facts opts pl
      { tasks := [], dependents := [], indegree := [],
        completedT := [], failedT := [] }
      (by simp) (by intro id t hl; cases hl) (by intro q cs hq; cases hq)
  obtain ⟨htasks, hdepC⟩ := addEdges_facts pl (initGState opts pl)
    hmemP
    (by
      intro q cs hq c hc
      rw [hdep0 q cs hq] at hc
      cases hc)
  have hkeysg : ((loadPlan opts pl).tasks.map Prod.fst).Nodup := by
    show ((addEdges (initGState opts pl) pl).tasks.map Prod.fst).Nodup
    rw [htasks]
    exact hnd
  have hvalsg : ∀ id t, List.lookup id (loadPlan opts pl).tasks =
      some t → t.status = .pending ∧ t.attempts = 0 := by
    intro id t hl
    have hl' : List.lookup id
        (addEdges (initGState opts pl) pl).tasks = some t := hl
    rw [htasks] at hl'
    exact hvals id t hl'
  have hdepg : ∀ q cs, List.lookup q (loadPlan opts pl).dependents =
      some cs → ∀ c ∈ cs,
      (List.lookup c (loadPlan opts pl).tasks).isSome = true := by
    intro q cs hq c hc
    have h0 := hdepC q cs hq c hc
    show (List.lookup c (addEdges (initGState opts pl) pl).tasks).isSome
      = true
    rw [htasks]
    exact h0
  have hmk : Inv opts.maxConcurrency (mkL opts (loadPlan opts pl)) := by
    refine ⟨hkeysg, hdepg, ?_, ?_, ?_, ?_, ?_, ?_, ?_, ?_, ?_, ?_, ?_⟩
    · show opts.maxConcurrency + heldSum [] + 0 = opts.maxConcurrency
      simp [heldSum]
    · intro i th hk
      cases i <;> cases hk
    · intro id t hl hr
      rw [(hvalsg id t hl).1] at hr
      cases hr
    · show (List.map Thread.tid ([] : List Thread)).Nodup
      simp
    · intro i th hk
      cases i <;> cases hk
    · intro id t hl hp
      exact (hvalsg id t hl).2
    · intro i th hk
      cases i <;> cases hk
    · intro id t hl
      have h0 := (hvalsg id t hl).2
      have h1 : (1 : Nat) ≤ max 1 t.maxAttempts := le_max_left _ _
      omega
    · intro id t hl
      show countLog [] id = t.attempts
      rw [(hvalsg id t hl).2]
      rfl
    · intro j hj
      cases hj
    · exact List.nodup_nil
  have hidsnd : ((getReadyTasks (loadPlan opts pl)).map Prod.fst).Nodup := by
    have hperm := (getReadyTasks_perm (loadPlan opts pl)).map Prod.fst
    refine hperm.nodup_iff.mpr ?_
    exact List.Nodup.sublist
      ((List.filter_sublist _).map Prod.fst) hkeysg
  have hready : ∀ c ∈ (getReadyTasks (loadPlan opts pl)).map Prod.fst,
      ∃ t, List.lookup c (mkL opts (loadPlan opts pl)).g.tasks = some t ∧
        t.status = .pending := by
    intro c hc
    obtain ⟨x, hmem', he⟩ := List.mem_map.mp hc
    obtain ⟨c', t⟩ := x
    have hec : c' = c := he
    subst hec
    have hf := (getReadyTasks_perm (loadPlan opts pl)).mem_iff.mp hmem'
    have hmemT := List.mem_of_mem_filter hf
    have hpred := List.of_mem_filter hf
    simp only [Bool.and_eq_true, decide_eq_true_eq] at hpred
    exact ⟨t, lookup_of_mem_nodup hkeysg hmemT, hpred.1⟩
  show Inv opts.maxConcurrency
    (((getReadyTasks (loadPlan opts pl)).map Prod.fst).foldl spawnTask
      (mkL opts (loadPlan opts pl)))
  exact inv_spawnFold _ _ hmk hidsnd hready

/-! ### The bounded-concurrency and bounded-attempts claims -/

theorem runnable_of_cover {p : TPhase} (h : coverPhase p = true) :
    runnablePhase p = true := by
  cases p <;> revert h <;> decide

/-- In any invariant state, the RUNNING tasks are covered injectively
(by task id) by threads holding at least one permit each, so their
number is bounded by the held permits and hence by the capacity. -/
theorem countRunning_le_of_inv {cap : Nat} {st : LState}
    (h : Inv cap st) : countStatus st .running ≤ cap := by
  have hlen : countStatus st .running =
      ((st.g.tasks.filter fun p =>
        decide (p.2.status = .running)).map Prod.fst).length := by
    rw [List.length_map]
    rfl
  have hsub : ∀ id ∈ (st.g.tasks.filter fun p =>
      decide (p.2.status = .running)).map Prod.fst,
      id ∈ (st.threads.filter fun th => coverPhase th.phase).map
        Thread.tid := by
    intro id hid
    obtain ⟨x, hxf, hxe⟩ := List.mem_map.mp hid
    obtain ⟨id', t⟩ := x
    have he2 : id' = id := hxe
    rw [← he2]
    have hmemT := List.mem_of_mem_filter hxf
    have hrun : t.status = .running := by
      have h0 := List.of_mem_filter hxf
      simpa using h0
    have hl : List.lookup id' st.g.tasks = some t :=
      lookup_of_mem_nodup h.keysND hmemT
    obtain ⟨k, th, hk, htid, hcov⟩ := h.runCov id' t hl hrun
    have hthm : th ∈ st.threads := List.get?_mem hk
    have hthf : th ∈ st.threads.filter fun th => coverPhase th.phase :=
      List.mem_filter.mpr ⟨hthm, hcov⟩
    rw [← htid]
    exact List.mem_map_of_mem Thread.tid hthf
  have hnd : ((st.g.tasks.filter fun p =>
      decide (p.2.status = .running)).map Prod.fst).Nodup :=
    List.Nodup.sublist ((List.filter_sublist _).map Prod.fst) h.keysND
  have hle1 : ((st.g.tasks.filter fun p =>
      decide (p.2.status = .running)).map Prod.fst).length ≤
      ((st.threads.filter fun th => coverPhase th.phase).map
        Thread.tid).length :=
    (hnd.subperm fun a ha => hsub a ha).length_le
  have hle2 : ((st.threads.filter fun th => coverPhase th.phase).map
      Thread.tid).length ≤ heldSum st.threads := by
    rw [List.length_map]
    refine length_filter_le_heldSum _ _ ?_
    intro th hm hcv
    obtain ⟨n, hn⟩ := List.mem_iff_get?.mp hm
    exact h.heldPos n th hn (runnable_of_cover hcv)
  have hcap := h.permits
  omega

/-- C3: at every moment of `run()` — in every state reachable from the
state in which the event loop starts polling — the number of tasks whose
status is RUNNING is at most the `maxConcurrency` option of the
scheduler, for every plan and every executor behaviour. -/
theorem c3_running_tasks_bounded_by_maxConcurrency
    (opts : SOptions) (pl : List PTask) (beh : Beh) (st : LState)
    (h : Reach beh (startState opts (loadPlan opts pl)) st) :
    countStatus st .running ≤ opts.maxConcurrency :=
  countRunning_le_of_inv (inv_reach (inv_start opts pl) h)

def c3beh : Beh := fun _ _ => .ok "done"

def c3s1 : LState :=
  stepThread c3beh (startState {} (loadPlan {} [planTask "a" []])) 0

/-- Witness for C3 one step into a run, where task `a` is RUNNING. -/
theorem c3_running_tasks_bounded_by_maxConcurrency_witness :
    countStatus c3s1 .running ≤ ({} : SOptions).maxConcurrency :=
  c3_running_tasks_bounded_by_maxConcurrency {} [planTask "a" []] c3beh
    c3s1 (Reach.step Reach.refl (by decide))

/-- C2 (amended): in every state a run passes through, the attempts
counter of each task is bounded by `max 1 maxAttempts` (not by `maxAttempts`
itself, which fails for `maxAttempts = 0`), and the executor has been
invoked for that task exactly `attempts` times — hence at most
`max 1 maxAttempts` times over the whole run. -/
theorem c2_attempts_bounded_amended (opts : SOptions) (pl : List PTask)
    (beh : Beh) (st : LState)
    (h : Reach beh (startState opts (loadPlan opts pl)) st)
    (id : String) (t : STask)
    (hl : List.lookup id st.g.tasks = some t) :
    t.attempts ≤ max 1 t.maxAttempts ∧
    countLog st.log id = t.attempts := by
  have hi := inv_reach (inv_start opts pl) h
  exact ⟨hi.attBound id t hl, hi.logCnt id t hl⟩

def c2amBeh : Beh := fun _ _ => .error "x"

def c2amS1 : LState :=
  stepThread c2amBeh (startState {} (loadPlan {} [planTask "w" []])) 0

def c2amT : STask :=
  { filePath := "w.ts", description := "build w", dependencies := [],
    priority := none, status := .running, result := none, error := none,
    attempts := 1, maxAttempts := 3 }

/-- Witness for the amended C2 one step into a run, where task `w` has
been attempted once. -/
theorem c2_attempts_bounded_amended_witness :
    List.lookup "w" c2amS1.g.tasks = some c2amT ∧
    c2amT.attempts ≤ max 1 c2amT.maxAttempts ∧
    countLog c2amS1.log "w" = c2amT.attempts :=
  ⟨by decide,
   (c2_attempts_bounded_amended {} [planTask "w" []] c2amBeh c2amS1
     (Reach.step Reach.refl (by decide)) "w" c2amT (by decide)).1,
   (c2_attempts_bounded_amended {} [planTask "w" []] c2amBeh c2amS1
     (Reach.step Reach.refl (by decide)) "w" c2amT (by decide)).2⟩

/-! ### State-manager round trip, listing, classifier and resume
claims -/

/-- C6: for every execution state, every state directory and every save
instant, `save` followed by `load` of the same plan id returns the state
with every field — goal, phase, tasks (all task fields), reasoning,
startedAt, metadata — preserved, except `lastCheckpoint`, which is
rewritten at save time to the moment of the save. -/
theorem c6_save_then_load_roundtrip (store : Store) (st : ExecState)
    (now : Nat) :
    StateManager.load (StateManager.save store st now) st.planId =
      some { st with lastCheckpoint := now } := by
  unfold StateManager.load StateManager.save
  rw [lookup_aset_self]
  show some (deserializeState (serializeState st now)) =
    some { st with lastCheckpoint := now }
  rw [deserialize_serialize]

/-- C8 counterexample store: a single `.json` file whose contents are
the literal text `not-json`, on which `JSON.parse` throws. -/
def c8store : Store := [("plan-corrupt.json", .invalid "not-json")]

/-- C8 counterexample: `list` enumerates file NAMES only and never reads
contents, so the plan id of a corrupt `.json` file does appear in the
returned array (even though `load` on it yields null), refuting the
claimed silent skipping of unparseable entries. -/
theorem c8_counterexample_corrupt_file_listed :
    StateManager.list c8store = ["plan-corrupt"] ∧
    "plan-corrupt" ∈ StateManager.list c8store ∧
    StateManager.load c8store "plan-corrupt" = none := by
  refine ⟨by decide, by decide, by decide⟩

/-- C8 (amended): `list` keeps exactly the `.json` file names (first
`.json` occurrence stripped) regardless of file contents: every stored
`.json` entry contributes its stripped name, and the result depends only
on the stored file names, never on the file data. -/
theorem c8_list_ignores_contents_amended :
    (∀ (store : Store) (f : String) (d : FileData), (f, d) ∈ store →
      strEndsWith f ".json" = true →
      strReplaceFirst f ".json" ∈ StateManager.list store) ∧
    (∀ s₁ s₂ : Store, s₁.map Prod.fst = s₂.map Prod.fst →
      StateManager.list s₁ = StateManager.list s₂) := by
  constructor
  · intro store f d hm hj
    unfold StateManager.list
    refine List.mem_map_of_mem _ ?_
    rw [List.mem_filter]
    exact ⟨List.mem_map_of_mem Prod.fst hm, hj⟩
  · intro s₁ s₂ h
    unfold StateManager.list
    rw [h]

def c8wstore : Store :=
  [("plan-a.json", .invalid "garbage"), ("notes.txt", .invalid "x")]

/-- Witness for the amended C8 at a store holding one corrupt `.json`
file and one non-json file. -/
theorem c8_list_ignores_contents_amended_witness :
    strReplaceFirst "plan-a.json" ".json" ∈ StateManager.list c8wstore ∧
    StateManager.list c8wstore =
      StateManager.list
        [("plan-a.json", .invalid "other"), ("notes.txt", .invalid "y")] :=
  ⟨c8_list_ignores_contents_amended.1 c8wstore "plan-a.json"
      (.invalid "garbage") (by decide) (by decide),
   c8_list_ignores_contents_amended.2 c8wstore
      [("plan-a.json", .invalid "other"), ("notes.txt", .invalid "y")]
      (by decide)⟩

/-- C9: for every exit code, `classify` on the stderr
`TypeError: Cannot read property \x27x\x27 of undefined` returns the
`type` category and not `runtime`; the classifier consults its rules in
the declared order syntax, type, import, runtime, assertion, timeout,
permission, resource, network, and `firstMatch` returns the first rule
with a matching pattern. -/
theorem c9_type_error_classified_type_not_runtime :
    (∀ ec : Int,
      classify "TypeError: Cannot read property \x27x\x27 of undefined"
        ec = .typeErr) ∧
    ECategory.typeErr ≠ ECategory.runtimeErr ∧
    ERROR_PATTERNS.map Prod.fst =
      [.synErr, .typeErr, .importErr, .runtimeErr, .assertErr,
       .timeoutErr, .permErr, .resourceErr, .netErr] := by
  refine ⟨?_, by decide, by decide⟩
  intro ec
  unfold classify
  decide

/-- C10: whenever the checkpointed tasks array is empty, `isComplete`
returns true regardless of phase (the every-task-COMPLETED disjunct
holds vacuously), so `run(goal, repoPath, resume=true)` with such a
checkpoint found never resumes it: the entry decision is a fresh run
under a newly generated plan id. -/
theorem c10_empty_tasks_checkpoint_never_resumed :
    (∀ st : ExecState, st.tasks = [] →
      StateManager.isComplete st = true) ∧
    (∀ (h8 : String → String) (goal : String) (now : Nat)
        (st : ExecState), st.tasks = [] →
      runEntry h8 true true (some st) goal now =
        .fresh (StateManager.generatePlanId h8 goal now)) := by
  have hcomp : ∀ st : ExecState, st.tasks = [] →
      StateManager.isComplete st = true := by
    intro st h
    unfold StateManager.isComplete
    rw [h]
    simp
  refine ⟨hcomp, ?_⟩
  intro h8 goal now st h
  show (if StateManager.isComplete st = true then
      RunStart.fresh (StateManager.generatePlanId h8 goal now)
    else RunStart.resumed st.planId) =
    RunStart.fresh (StateManager.generatePlanId h8 goal now)
  rw [hcomp st h]
  simp

/-- A checkpoint saved before plan materialization: phase `planning`,
no tasks. -/
def c10st : ExecState :=
  { planId := "plan-old", goal := "g", phase := .planning, tasks := [],
    architectureReasoning := "", startedAt := 0, lastCheckpoint := 0,
    metadata := none }

/-- Witness for C10 at a planning-phase empty-tasks checkpoint. -/
theorem c10_empty_tasks_checkpoint_never_resumed_witness :
    StateManager.isComplete c10st = true ∧
    runEntry (fun _ => "abcd1234") true true (some c10st) "g" 7 =
      .fresh (StateManager.generatePlanId (fun _ => "abcd1234") "g" 7) :=
  ⟨c10_empty_tasks_checkpoint_never_resumed.1 c10st rfl,
   c10_empty_tasks_checkpoint_never_resumed.2 (fun _ => "abcd1234") "g" 7
     c10st rfl⟩

/-! ### The engine resume path (`src/src/core/DevEngine.ts`) -/

/-- Observable actions of `DevEngine.resumeExecution`. -/
inductive EngAct where
  | emitPhase (name : String)
  | schedLoadPlan
  | schedResumeFrom
  | schedRun
  | scribeGenerate
  | writeFile (path : String)
  | checkpointSave
deriving DecidableEq

/-- `DevEngine.resumeExecution` (lines 282–336), as the sequence of its
observable actions paired with the final engine state.
`this.currentState = state` (line 283) makes `this.currentState` and
`state` two names for the same object, so the write
`this.currentState.phase = ... executing` (line 313) is visible through
`state` in the test of line 317, which compares `state.phase` against
the documenting phase; the single threaded record `cur` models that
shared object.  `phaseDocument` (lines 401–413) is the Scribe model
call followed by the `README.md` write. -/
def resumeExecution (state : ExecState) : List EngAct × ExecState :=
  let cur := state
  let cur := { cur with phase := .executing }
  let pre := [EngAct.schedLoadPlan, EngAct.schedResumeFrom,
    EngAct.emitPhase "execution", EngAct.schedRun]
  if cur.phase ≠ .documenting then
    let cur := { cur with phase := .documenting }
    let cur := { cur with phase := .completed }
    (pre ++ [EngAct.emitPhase "documentation", EngAct.scribeGenerate,
      EngAct.writeFile "README.md", EngAct.checkpointSave], cur)
  else
    let cur := { cur with phase := .completed }
    (pre ++ [EngAct.checkpointSave], cur)

/-- C7: a `run(goal, repoPath, resume=true)` that finds a non-complete
checkpoint whose stored phase is documenting resumes it, and the
resumed execution performs the documentation phase again — the Scribe
model call is made and README.md is rewritten — before the state is
marked completed.  (The line-313 write makes the line-317 test compare
the executing phase, so documentation is redone exactly as the spec
asks.) -/
theorem c7_resume_documenting_redoes_documentation (st : ExecState)
    (h : st.phase = .documenting)
    (hnc : StateManager.isComplete st = false) :
    (∀ (h8 : String → String) (goal : String) (now : Nat),
      runEntry h8 true true (some st) goal now = .resumed st.planId) ∧
    (resumeExecution st).1 =
      [.schedLoadPlan, .schedResumeFrom, .emitPhase "execution",
       .schedRun, .emitPhase "documentation", .scribeGenerate,
       .writeFile "README.md", .checkpointSave] ∧
    EngAct.scribeGenerate ∈ (resumeExecution st).1 ∧
    EngAct.writeFile "README.md" ∈ (resumeExecution st).1 ∧
    (resumeExecution st).2.phase = .completed := by
  have he : (resumeExecution st).1 =
      [.schedLoadPlan, .schedResumeFrom, .emitPhase "execution",
       .schedRun, .emitPhase "documentation", .scribeGenerate,
       .writeFile "README.md", .checkpointSave] := rfl
  refine ⟨?_, he, ?_, ?_, rfl⟩
  · intro h8 goal now
    show (if StateManager.isComplete st = true then
        RunStart.fresh (StateManager.generatePlanId h8 goal now)
      else RunStart.resumed st.planId) = RunStart.resumed st.planId
    rw [hnc]
    simp
  · rw [he]
    decide
  · rw [he]
    decide

/-- A documenting-phase checkpoint with one COMPLETED and one PENDING
task (so it is not complete and is in fact resumed). -/
def c7st : ExecState :=
  { planId := "plan-doc", goal := "g", phase := .documenting,
    tasks :=
      [{ id := "a", filePath := "a.ts", description := "build a",
         dependencies := [], status := .completed, result := some "ok",
         error := none, attempts := 1, startedAt := none,
         completedAt := none },
       { id := "b", filePath := "b.ts", description := "build b",
         dependencies := ["a"], status := .pending, result := none,
         error := none, attempts := 0, startedAt := none,
         completedAt := none }],
    architectureReasoning := "r", startedAt := 0, lastCheckpoint := 5,
    metadata := none }

/-- Witness for C7 at a concrete documenting-phase checkpoint. -/
theorem c7_resume_documenting_redoes_documentation_witness :
    runEntry (fun _ => "abcd1234") true true (some c7st) "g" 7 =
      .resumed "plan-doc" ∧
    EngAct.scribeGenerate ∈ (resumeExecution c7st).1 ∧
    EngAct.writeFile "README.md" ∈ (resumeExecution c7st).1 ∧
    (resumeExecution c7st).2.phase = .completed :=
  ⟨(c7_resume_documenting_redoes_documentation c7st rfl
      (by decide)).1 (fun _ => "abcd1234") "g" 7,
   (c7_resume_documenting_redoes_documentation c7st rfl
      (by decide)).2.2.1,
   (c7_resume_documenting_redoes_documentation c7st rfl
      (by decide)).2.2.2.1,
   (c7_resume_documenting_redoes_documentation c7st rfl
      (by decide)).2.2.2.2⟩

end DevEngineSpec
